import Mathlib

set_option maxRecDepth 40000

/-!
Verification of `optimize_questions.py`, a batch-enrichment driver that fills
two generated text fields (`legalReference`, `analysis`) into a collection of
exam-question records by querying a remote completion endpoint.

The Python source is embedded shallowly:
* JSON values are modelled by the inductive type `Json`; the standard-library
  decoder `json.loads` is modelled by a fuel-based recursive-descent parser
  (`parseValue` / `loadsC`).  The model covers objects, arrays, strings with
  the common escape sequences, integer numerals, booleans and null;
  floating-point numerals and unicode escapes are outside the model (no claim
  touches them).
* Python `str.strip`, the two `re.sub` fence-removal patterns, and the greedy
  brace-extraction pattern of `clean_json_response` are modelled over
  `List Char`.
* The worker `process_one`, the completeness filter, the merge loop of `main`
  and the atomic-save routine `save_questions` are modelled as pure functions;
  raised exceptions become `none` / `Except.error`.
* The asyncio event loop with its counting semaphore is modelled as a labelled
  transition system (`SchedStep`) over the phases a worker passes through.
-/

/-- Characters that are written via their code point to keep string literals
simple: the opening brace. -/
def obChar : Char := Char.ofNat 123

/-- Closing brace. -/
def cbChar : Char := Char.ofNat 125

/-- Backtick, the code-fence character. -/
def btChar : Char := Char.ofNat 96

/-- Double quote. -/
def qChar : Char := Char.ofNat 34

/-- Backslash. -/
def bsChar : Char := Char.ofNat 92

/-- Newline. -/
def nlChar : Char := Char.ofNat 10

/-- Python whitespace for `str.strip()` and the regex class `\s`
(space, tab, newline, carriage return, vertical tab, form feed). -/
def isPyWs (c : Char) : Bool :=
  decide (c = Char.ofNat 32 ∨ c = Char.ofNat 9 ∨ c = Char.ofNat 10 ∨
    c = Char.ofNat 13 ∨ c = Char.ofNat 11 ∨ c = Char.ofNat 12)

/-- JSON inter-token whitespace accepted by `json.loads`
(space, tab, newline, carriage return). -/
def isJsonWs (c : Char) : Bool :=
  decide (c = Char.ofNat 32 ∨ c = Char.ofNat 9 ∨ c = Char.ofNat 10 ∨
    c = Char.ofNat 13)

/-- Drop trailing characters satisfying `p` (the right half of `str.strip`). -/
def dropTrailing (p : Char → Bool) (cs : List Char) : List Char :=
  (cs.reverse.dropWhile p).reverse

/-- Model of Python `str.strip()` over a character list, parameterised by the
whitespace predicate. -/
def stripWith (p : Char → Bool) (cs : List Char) : List Char :=
  dropTrailing p (cs.dropWhile p)

/-- JSON values as produced by `json.loads`.  Objects keep their members in
source order; lookups take the last binding of a key, matching dict insertion
overwrite. -/
inductive Json where
  | null
  | bool (b : Bool)
  | num (n : Int)
  | str (s : String)
  | arr (elems : List Json)
  | obj (members : List (String × Json))

/-- JSON string escapes handled by the model (the short escapes of the JSON
grammar; `\uXXXX` is outside the model). -/
def unescapeChar (c : Char) : Option Char :=
  if c = qChar then some qChar
  else if c = bsChar then some bsChar
  else if c = Char.ofNat 47 then some (Char.ofNat 47)
  else if c = 'n' then some nlChar
  else if c = 't' then some (Char.ofNat 9)
  else if c = 'r' then some (Char.ofNat 13)
  else if c = 'b' then some (Char.ofNat 8)
  else if c = 'f' then some (Char.ofNat 12)
  else none

/-- Parse the body of a JSON string literal (the opening quote already
consumed), returning the decoded string and the unconsumed input. -/
def parseStringBody (fuel : Nat) (cs : List Char) (acc : List Char) :
    Option (String × List Char) :=
  match fuel with
  | 0 => none
  | f + 1 =>
    match cs with
    | [] => none
    | c :: rest =>
      if c = qChar then some (String.mk acc.reverse, rest)
      else if c = bsChar then
        match rest with
        | e :: rest2 =>
          match unescapeChar e with
          | some d => parseStringBody f rest2 (d :: acc)
          | none => none
        | [] => none
      else parseStringBody f rest (c :: acc)

/-- Value of a digit string. -/
def digitsToNat (ds : List Char) : Nat :=
  ds.foldl (fun n c => n * 10 + (c.toNat - 48)) 0

/-- Parse a nonempty run of digits as a natural number. -/
def parseNatNum (cs : List Char) : Option (Nat × List Char) :=
  let ds := cs.takeWhile Char.isDigit
  if ds.isEmpty then none
  else some (digitsToNat ds, cs.dropWhile Char.isDigit)

mutual

/-- Recursive-descent parser for one JSON value, modelling `json.loads`'s
grammar (integer numerals only).  `fuel` bounds recursion depth. -/
def parseValue (fuel : Nat) (cs : List Char) : Option (Json × List Char) :=
  match fuel with
  | 0 => none
  | f + 1 =>
    match cs with
    | [] => none
    | c :: rest =>
      if c = obChar then parseObjBody f (rest.dropWhile isJsonWs)
      else if c = Char.ofNat 91 then parseArrBody f (rest.dropWhile isJsonWs)
      else if c = qChar then
        match parseStringBody f rest [] with
        | some (s, r) => some (Json.str s, r)
        | none => none
      else if c = 't' then
        match rest with
        | 'r' :: 'u' :: 'e' :: r => some (Json.bool true, r)
        | _ => none
      else if c = 'f' then
        match rest with
        | 'a' :: 'l' :: 's' :: 'e' :: r => some (Json.bool false, r)
        | _ => none
      else if c = 'n' then
        match rest with
        | 'u' :: 'l' :: 'l' :: r => some (Json.null, r)
        | _ => none
      else if c = Char.ofNat 45 then
        match parseNatNum rest with
        | some (n, r) => some (Json.num (-(n : Int)), r)
        | none => none
      else if c.isDigit then
        match parseNatNum cs with
        | some (n, r) => some (Json.num (n : Int), r)
        | none => none
      else none

/-- Parse an object body: the opening brace and any following whitespace are
already consumed. -/
def parseObjBody (fuel : Nat) (cs : List Char) : Option (Json × List Char) :=
  match fuel with
  | 0 => none
  | f + 1 =>
    match cs with
    | [] => none
    | c :: rest =>
      if c = cbChar then some (Json.obj [], rest)
      else parseMembers f cs []

/-- Parse the members of a nonempty object; `cs` starts at a key. -/
def parseMembers (fuel : Nat) (cs : List Char) (acc : List (String × Json)) :
    Option (Json × List Char) :=
  match fuel with
  | 0 => none
  | f + 1 =>
    match cs with
    | [] => none
    | c :: rest =>
      if c = qChar then
        match parseStringBody f rest [] with
        | some (k, r1) =>
          match r1.dropWhile isJsonWs with
          | c2 :: r2 =>
            if c2 = Char.ofNat 58 then
              match parseValue f (r2.dropWhile isJsonWs) with
              | some (v, r3) =>
                match r3.dropWhile isJsonWs with
                | c3 :: r4 =>
                  if c3 = Char.ofNat 44 then
                    parseMembers f (r4.dropWhile isJsonWs) ((k, v) :: acc)
                  else if c3 = cbChar then
                    some (Json.obj (((k, v) :: acc).reverse), r4)
                  else none
                | [] => none
              | none => none
            else none
          | [] => none
        | none => none
      else none

/-- Parse an array body: the opening bracket and any following whitespace are
already consumed. -/
def parseArrBody (fuel : Nat) (cs : List Char) : Option (Json × List Char) :=
  match fuel with
  | 0 => none
  | f + 1 =>
    match cs with
    | [] => none
    | c :: rest =>
      if c = Char.ofNat 93 then some (Json.arr [], rest)
      else parseElems f cs []

/-- Parse the elements of a nonempty array; `cs` starts at a value. -/
def parseElems (fuel : Nat) (cs : List Char) (acc : List Json) :
    Option (Json × List Char) :=
  match fuel with
  | 0 => none
  | f + 1 =>
    match parseValue f cs with
    | some (v, r1) =>
      match r1.dropWhile isJsonWs with
      | c2 :: r2 =>
        if c2 = Char.ofNat 44 then parseElems f (r2.dropWhile isJsonWs) (v :: acc)
        else if c2 = Char.ofNat 93 then some (Json.arr ((v :: acc).reverse), r2)
        else none
      | [] => none
    | none => none

end

/-- Model of `json.loads` on a character list: strip surrounding JSON
whitespace and require the parser to consume everything. -/
def loadsC (cs : List Char) : Option Json :=
  match parseValue (4 * (stripWith isJsonWs cs).length + 8) (stripWith isJsonWs cs) with
  | some (v, r) => if r.isEmpty then some v else none
  | none => none

/-- The seven characters of the regex literal for an opening json code fence. -/
def fenceJson : List Char := [btChar, btChar, btChar, 'j', 's', 'o', 'n']

/-- The three backticks of a bare code fence. -/
def fence3 : List Char := [btChar, btChar, btChar]

/-- Model of `re.sub(r"^```(?:json)?\s*", "", text)`: remove a leading fence
marker (preferring the `json`-tagged form) together with the whitespace that
follows it. -/
def subFenceStart (cs : List Char) : List Char :=
  if cs.take 7 = fenceJson then (cs.drop 7).dropWhile isPyWs
  else if cs.take 3 = fence3 then (cs.drop 3).dropWhile isPyWs
  else cs

/-- Model of `re.sub(r"\s*```\s*$", "", text)`: remove a trailing fence marker
together with the whitespace around it; leave the text unchanged when the
pattern does not match. -/
def subFenceEnd (cs : List Char) : List Char :=
  if (cs.reverse.dropWhile isPyWs).take 3 = fence3 then
    (((cs.reverse.dropWhile isPyWs).drop 3).dropWhile isPyWs).reverse
  else cs

/-- Model of the greedy brace regex search of the retry path: the span from
the first opening brace to the last closing brace, provided that closing
brace comes after the opening one. -/
def braceSpan (cs : List Char) : Option (List Char) :=
  if (((cs.dropWhile (fun c => decide (c ≠ obChar))).reverse.dropWhile
        (fun c => decide (c ≠ cbChar))).reverse).isEmpty then none
  else some (((cs.dropWhile (fun c => decide (c ≠ obChar))).reverse.dropWhile
        (fun c => decide (c ≠ cbChar))).reverse)

/-- The decode policy of `clean_json_response` applied to the fully stripped
text: direct decode first, then retry on the greedy brace span. -/
def cleanCore (t : List Char) : Option Json :=
  match loadsC t with
  | some v => some v
  | none =>
    match braceSpan t with
    | some seg => loadsC seg
    | none => none

/-- Model of `clean_json_response` (src/optimize_questions.py:139-162): strip the raw
text, remove code-fence wrappers, try a direct decode, then retry on the
greedy first-brace-to-last-brace span; `none` models the raised
`ValueError`. -/
def clean_json_response (raw : String) : Option Json :=
  cleanCore (stripWith isPyWs (subFenceEnd (subFenceStart (stripWith isPyWs raw.data))))

/-- Maximum number of concurrent requests (src line 43). -/
def CONCURRENCY : Nat := 20

/-- Write-back cadence: save after this many successful merges (src line 44). -/
def SAVE_EVERY : Nat := 5

/-- A record whose analysis is longer than this is treated as already
complete (src line 45). -/
def SKIP_THRESHOLD : Nat := 500

/-- Maximum attempts per item (src line 46). -/
def MAX_RETRIES : Nat := 3

/-- One exam-question record of `questions.json`: a stable identifier, static
question content, and the two enriched fields, which hold whatever JSON value
a result carried (absent before enrichment). -/
structure Record where
  id : Int
  question : String
  options : List String
  correctAnswer : Int
  scenario : Option String
  explanation : Option String
  legalReference : Option Json
  analysis : Option Json

/-- The Python exceptions relevant to the modelled code paths. -/
inductive PyErr where
  | keyError
  | typeError
  | valueError
  | indexError
  | netError
deriving DecidableEq

/-- The fixed text of the system prompt before the interpolated GDPR blob. -/
def sysPromptHead : String :=
  "你是一位资深的欧盟数据保护法律学者和 CIPP/E 考试培训专家。\n\n" ++
  "以下是《通用数据保护条例》(GDPR) 的完整法律文本，供你在分析中精确引用：\n\n" ++
  "<gdpr_full_text>\n"

/-- The fixed text of the system prompt after the interpolated GDPR blob. -/
def sysPromptTail : String :=
  "\n</gdpr_full_text>\n\n" ++
  "你的任务是为 CIPP/E 考试题目生成两部分内容：\n\n" ++
  "═══ 第一部分：legalReference（法条原文）═══\n" ++
  "- 找出与该题目最直接相关的 GDPR 条款（通常 1-3 条）\n" ++
  "- 从上面的 GDPR 全文中逐字摘录对应条款的原文\n" ++
  "- 格式：\"GDPR Article N - 标题\\n\\n条文正文\"\n" ++
  "- 如涉及多条，用 \"\\n\\n---\\n\\n\" 分隔\n" ++
  "- 如果题目涉及非 GDPR 法源（如 ECHR, ePrivacy Directive, Convention 108），\n" ++
  "  请标明来源并提供条文原文\n" ++
  "- 清理 Markdown 格式符号（#, *, 等），只保留干净的法律文本\n\n" ++
  "═══ 第二部分：analysis（考点深度解析）═══\n" ++
  "请用中文撰写一篇\"微型学术论文\"级别的解析（800-1500字），使用自然段落，\n" ++
  "不使用 Markdown 标题。必须包含以下 4 个模块，每个模块作为独立段落：\n\n" ++
  "1.【考点定位】明确本题考查的欧盟数据保护法律知识点和法律概念，\n" ++
  "   指出对应的 CIPP/E 考试 Domain：\n" ++
  "   - Domain I: European Context (Institutions, History, Human Rights)\n" ++
  "   - Domain II: GDPR Principles, Rights, Controllers/Processors, Transfers\n" ++
  "   - Domain III: Compliance, Security, Accountability, Internet Technology\n\n" ++
  "2.【法理深度】引用 GDPR 具体条款和 Recital 编号，解释立法逻辑和背景。\n\n" ++
  "3.【判例与场景】引用真实的欧盟法院判例（如 Schrems II, Google Spain,\n" ++
  "   Planet 49, Fashion ID 等）或监管机构罚款案例。如无直接判例，\n" ++
  "   构建一个贴近实务的业务场景进行类比分析。\n\n" ++
  "4.【知识图谱】串联相关知识点，展示本题考点与其他 GDPR 主题的关联。\n" ++
  "   例如：提到\"同意\"时，一并梳理同意的定义(Art.4)、有效条件(Art.7)、\n" ++
  "   儿童同意(Art.8)、特殊类别数据的明确同意(Art.9)等。\n\n" ++
  "═══ 输出格式 ═══\n请严格输出一个 JSON 对象，不要包含任何其他文字：\n" ++
  "\x7b\n  \"legalReference\": \"...\",\n  \"analysis\": \"...\"\n\x7d\n"

/-- Model of `build_system_prompt` (src lines 55-106): embed the full GDPR text into
the fixed instruction preamble.  Pure text assembly. -/
def build_system_prompt (gdpr_text : String) : String :=
  sysPromptHead ++ gdpr_text ++ sysPromptTail

/-- The four option letters. -/
def abcdChars : List Char := ['A', 'B', 'C', 'D']

/-- Python string indexing `'ABCD'[i]` for an int index: negative indices
count from the end; `none` models IndexError. -/
def pyIndexABCD (i : Int) : Option Char :=
  if 0 ≤ i ∧ i < 4 then abcdChars.get? i.toNat
  else if -4 ≤ i ∧ i < 0 then abcdChars.get? (i + 4).toNat
  else none

/-- The per-option lines of `build_user_prompt`: `'ABCD'[i]` is looked up for
every enumerated position, so a fifth option raises IndexError (`none`). -/
def optionLines (i : Nat) : List String → Option (List String)
  | [] => some []
  | opt :: rest =>
    match abcdChars.get? i with
    | none => none
    | some c =>
      match optionLines (i + 1) rest with
      | none => none
      | some ls => some (("  " ++ String.mk [c] ++ ". " ++ opt) :: ls)

/-- Model of `build_user_prompt` (src lines 112-133).  `none` models the IndexError
raised by `'ABCD'[...]` on an out-of-range option count or correct-answer
index. -/
def build_user_prompt (q : Record) : Option String :=
  match optionLines 0 q.options with
  | none => none
  | some ls =>
    let options_text := String.intercalate "\n" ls
    match pyIndexABCD q.correctAnswer with
    | none => none
    | some correct_letter =>
      let scenario_part :=
        if (stripWith isPyWs (q.scenario.getD "").data).isEmpty then ""
        else "\n【背景场景】\n" ++ q.scenario.getD "" ++ "\n"
      some ("请分析以下 CIPP/E 考试题目：\n" ++ scenario_part ++
        "\n【题目】" ++ q.question ++
        "\n\n【选项】\n" ++ options_text ++
        "\n\n【正确答案】" ++ String.mk [correct_letter] ++
        "\n\n【现有解释】" ++ q.explanation.getD "" ++
        "\n\n请根据 system prompt 中的指令，输出包含 legalReference 和 analysis 的 JSON 对象。")

/-- Substring test over character lists (Python `in` on strings). -/
def isInfixOfB (needle hay : List Char) : Bool :=
  hay.tails.any (fun t => needle.isPrefixOf t)

/-- Python `k in j` for a decoded JSON value: key membership for dicts,
element membership for lists, substring test for strings; `none` models the
TypeError raised on the remaining value kinds. -/
def containsPy (j : Json) (k : String) : Option Bool :=
  match j with
  | .obj kvs => some (kvs.any (fun kv => kv.1 == k))
  | .arr xs => some (xs.any (fun x => match x with | .str s => s == k | _ => false))
  | .str s => some (isInfixOfB k.data s.data)
  | _ => none

/-- Lookup in the dict built from an object's member list: a later duplicate
key overwrites an earlier one, as in dict insertion. -/
def lookupLast (kvs : List (String × Json)) (k : String) : Option Json :=
  kvs.foldl (fun acc kv => if kv.1 = k then some kv.2 else acc) none

/-- Python `j[k]` for a string key: `none` models TypeError (not a dict) or
KeyError (missing key). -/
def getItemPy (j : Json) (k : String) : Option Json :=
  match j with
  | .obj kvs => lookupLast kvs k
  | _ => none

/-- Python truthiness of a decoded JSON value (`if result:`). -/
def pyTruthy : Json → Bool
  | .null => false
  | .bool b => b
  | .num n => decide (n ≠ 0)
  | .str s => !s.isEmpty
  | .arr xs => !xs.isEmpty
  | .obj kvs => !kvs.isEmpty

/-- The post-decode validation of `process_one` (src lines 196-197):
`if "legalReference" not in result or "analysis" not in result: raise`. -/
def validateFields (j : Json) : Except PyErr Json :=
  match containsPy j "legalReference" with
  | none => Except.error PyErr.typeError
  | some false => Except.error PyErr.valueError
  | some true =>
    match containsPy j "analysis" with
    | none => Except.error PyErr.typeError
    | some false => Except.error PyErr.valueError
    | some true => Except.ok j

/-- One attempt of `process_one` (src lines 182-197): build the prompt, make
the network call (modelled by the oracle `net`, which returns the raw
response text of attempt `a` or the exception it raised), decode and
validate. -/
def attemptOutcome (q : Record) (net : Nat → Except PyErr String) (a : Nat) :
    Except PyErr Json :=
  match build_user_prompt q with
  | none => Except.error PyErr.indexError
  | some _ =>
    match net a with
    | Except.error e => Except.error e
    | Except.ok raw =>
      match clean_json_response raw with
      | none => Except.error PyErr.valueError
      | some j => validateFields j

/-- The retry loop of `process_one`, returning the emitted value, the number
of the terminal attempt, and the list of backoff waits performed (in time
units, one entry per sleep).  `a` is the current attempt number, the second
argument the number of attempts still allowed. -/
def attemptLoop (q : Record) (net : Nat → Except PyErr String) :
    Nat → Nat → Option Json × Nat × List Nat
  | a, 0 => (none, a, [])
  | a, r + 1 =>
    match attemptOutcome q net a with
    | Except.ok j => (some j, a, [])
    | Except.error _ =>
      if r = 0 then (none, a, [])
      else
        let out := attemptLoop q net (a + 1) r
        (out.1, out.2.1, 2 ^ a :: out.2.2)

/-- Everything `process_one` reports about one work item. -/
structure WorkerOut where
  emission : Int × Option Json
  attempts : Nat
  waits : List Nat

/-- Model of `process_one` (src lines 168-210) as a pure function of the network
oracle. -/
def process_one (q : Record) (net : Nat → Except PyErr String) : WorkerOut :=
  let out := attemptLoop q net 1 MAX_RETRIES
  { emission := (q.id, out.1), attempts := out.2.1, waits := out.2.2 }

/-- The `try`/`except Exception` of `process_one`: run the body, hand any
exception to the handler. -/
def catchAll (x : Except PyErr (Int × Option Json))
    (h : PyErr → Except PyErr (Int × Option Json)) :
    Except PyErr (Int × Option Json) :=
  match x with
  | Except.ok v => Except.ok v
  | Except.error e => h e

/-- The retry loop of `process_one` with exception propagation made explicit:
an uncaught exception of the body would surface as `Except.error`. -/
def attemptLoopE (q : Record) (net : Nat → Except PyErr String) :
    Nat → Nat → Except PyErr (Int × Option Json)
  | _, 0 => Except.error PyErr.valueError
  | a, r + 1 =>
    catchAll
      (match attemptOutcome q net a with
       | Except.ok j => Except.ok (q.id, some j)
       | Except.error e => Except.error e)
      (fun _ =>
        if r = 0 then Except.ok (q.id, none)
        else attemptLoopE q net (a + 1) r)

/-- Model of `process_one` with its exception behaviour explicit. -/
def process_oneE (q : Record) (net : Nat → Except PyErr String) :
    Except PyErr (Int × Option Json) :=
  attemptLoopE q net 1 MAX_RETRIES

/-- Python `len` on a decoded JSON value (`len(q.get("analysis", ""))`):
length for strings, element count for lists, key count for dicts; `none`
models the TypeError raised on numbers, booleans and null. -/
def pyLen (j : Json) : Option Nat :=
  match j with
  | .str s => some s.length
  | .arr xs => some xs.length
  | .obj kvs => some (kvs.map Prod.fst).eraseDups.length
  | _ => none

/-- The value of `len` on the analysis field of one record, with the
empty-string default for an absent field. -/
def analysisLenOf (q : Record) : Option Nat :=
  match q.analysis with
  | none => some 0
  | some v => pyLen v

/-- Completeness filter of `main` (src lines 259-266): partition the loaded
records into the skipped count and the pending work list, preserving order;
`none` models the TypeError `len` would raise on a non-sized field value. -/
def toProcessAux : List Record → Option (List Record × Nat)
  | [] => some ([], 0)
  | q :: rest =>
    match analysisLenOf q with
    | none => none
    | some n =>
      match toProcessAux rest with
      | none => none
      | some (tp, sk) =>
        if SKIP_THRESHOLD < n then some (tp, sk + 1) else some (q :: tp, sk)

/-- The analysis length used by the filter, with the default for records the
filter accepts as sized. -/
def analysisLenD (q : Record) : Nat := (analysisLenOf q).getD 0

/-- Filesystem effects of persistence. -/
inductive FsEvent where
  | write (path : String) (content : List Record)
  | rename (src : String) (dst : String)

/-- The canonical output path (`questions.json`, file name only). -/
def QUESTIONS_PATH : String := "questions.json"

/-- The temporary path, the canonical path with its suffix replaced. -/
def TMP_PATH : String := "questions.tmp"

/-- Model of `save_questions` (src lines 216-221): write the whole collection to the
temporary path, then rename it over the canonical path. -/
def saveQuestions (qs : List Record) : List FsEvent :=
  [FsEvent.write TMP_PATH qs, FsEvent.rename TMP_PATH QUESTIONS_PATH]

/-- The id-to-index dict of `main` (src line 287), mapping each record id to
its index: the last record with a given id wins, as in dict comprehension;
`none` models the KeyError of a missing id. -/
def idToIdxFrom : Nat → List Record → Int → Option Nat
  | _, [], _ => none
  | i, q :: rest, qid =>
    match idToIdxFrom (i + 1) rest qid with
    | some j => some j
    | none => if q.id = qid then some i else none

/-- Lookup of one identifier in the id-to-index dict. -/
def idToIdx (qs : List Record) (qid : Int) : Option Nat :=
  idToIdxFrom 0 qs qid

/-- The mutable state of the result-consumption loop of `main`
(src lines 291-323). -/
structure DriverState where
  qs : List Record
  completed_since_save : Nat
  total_done : Nat
  failed : Nat
  saves : Nat
  events : List FsEvent

/-- One iteration of the `as_completed` loop of `main` (src lines 304-323):
merge a successful result into the collection, count failures, save every
`SAVE_EVERY` successful merges.  `none` models an uncaught exception of the
merge (missing id, non-dict result). -/
def mergeStep (st : DriverState) (res : Int × Option Json) : Option DriverState :=
  match res.2 with
  | none => some { st with failed := st.failed + 1 }
  | some r =>
    if pyTruthy r then
      match idToIdx st.qs res.1 with
      | none => none
      | some idx =>
        match getItemPy r "legalReference" with
        | none => none
        | some legal =>
          match getItemPy r "analysis" with
          | none => none
          | some ana =>
            match st.qs.get? idx with
            | none => none
            | some q =>
              let qs1 := st.qs.set idx
                { q with legalReference := some legal, analysis := some ana }
              let css := st.completed_since_save + 1
              if SAVE_EVERY ≤ css then
                some { qs := qs1, completed_since_save := 0,
                       total_done := st.total_done + 1, failed := st.failed,
                       saves := st.saves + 1,
                       events := st.events ++ saveQuestions qs1 }
              else
                some { qs := qs1, completed_since_save := css,
                       total_done := st.total_done + 1, failed := st.failed,
                       saves := st.saves, events := st.events }
    else some { st with failed := st.failed + 1 }

/-- Consume the results in completion order. -/
def runResults (st : DriverState) : List (Int × Option Json) → Option DriverState
  | [] => some st
  | r :: rest =>
    match mergeStep st r with
    | none => none
    | some st' => runResults st' rest

/-- Driver state at the start of the loop. -/
def initState (qs : List Record) : DriverState :=
  { qs := qs, completed_since_save := 0, total_done := 0, failed := 0,
    saves := 0, events := [] }

/-- What a whole run produces: the final collection, the filesystem events in
order, and the number of mid-run saves. -/
structure RunOut where
  qs : List Record
  events : List FsEvent
  saves : Nat

/-- Model of `main` after loading (src lines 259-326): filter, return early with no
further action when nothing is pending, otherwise consume all results and
save once more unconditionally.  The results list is the worker emissions in
completion order. -/
def driverRun (qs : List Record) (results : List (Int × Option Json)) :
    Option RunOut :=
  match toProcessAux qs with
  | none => none
  | some (tp, _) =>
    if tp.isEmpty then some { qs := qs, events := [], saves := 0 }
    else
      match runResults (initState qs) results with
      | none => none
      | some st => some { qs := st.qs, events := st.events ++ saveQuestions st.qs,
                          saves := st.saves }

/-- The phases one worker passes through inside `async with semaphore`
(src lines 180-210): waiting to acquire the limiter, awaiting the network
call of attempt `a`, sleeping in backoff after a failed attempt `a`, about to
leave the `async with` block with outcome `ok`, and returned. -/
inductive Phase where
  | waiting
  | calling (attempt : Nat)
  | sleeping (attempt : Nat)
  | releasing (ok : Bool)
  | finished (ok : Bool)
deriving DecidableEq

/-- The event-loop state: free semaphore slots plus the phase of every
launched task. -/
structure SchedState where
  sem : Nat
  tasks : List Phase
deriving DecidableEq

/-- One cooperative scheduling step.  Acquiring the semaphore requires a free
slot and decrements it; leaving the `async with` block increments it
unconditionally, whatever the outcome; the attempt outcome at each call is
nondeterministic, covering every network oracle. -/
inductive SchedStep : SchedState → SchedState → Prop where
  | acquire (n : Nat) (l1 l2 : List Phase) :
      SchedStep ⟨n + 1, l1 ++ Phase.waiting :: l2⟩ ⟨n, l1 ++ Phase.calling 1 :: l2⟩
  | callOk (n a : Nat) (l1 l2 : List Phase) :
      SchedStep ⟨n, l1 ++ Phase.calling a :: l2⟩ ⟨n, l1 ++ Phase.releasing true :: l2⟩
  | callFailRetry (n a : Nat) (l1 l2 : List Phase) (h : a < MAX_RETRIES) :
      SchedStep ⟨n, l1 ++ Phase.calling a :: l2⟩ ⟨n, l1 ++ Phase.sleeping a :: l2⟩
  | callFailLast (n : Nat) (l1 l2 : List Phase) :
      SchedStep ⟨n, l1 ++ Phase.calling MAX_RETRIES :: l2⟩
        ⟨n, l1 ++ Phase.releasing false :: l2⟩
  | wake (n a : Nat) (l1 l2 : List Phase) :
      SchedStep ⟨n, l1 ++ Phase.sleeping a :: l2⟩ ⟨n, l1 ++ Phase.calling (a + 1) :: l2⟩
  | release (n : Nat) (ok : Bool) (l1 l2 : List Phase) :
      SchedStep ⟨n, l1 ++ Phase.releasing ok :: l2⟩ ⟨n + 1, l1 ++ Phase.finished ok :: l2⟩

/-- A task in this phase holds a semaphore slot. -/
def holdsSlot : Phase → Bool
  | .waiting => false
  | .finished _ => false
  | _ => true

/-- A task in this phase has a network call in flight. -/
def isCalling : Phase → Bool
  | .calling _ => true
  | _ => false

/-- A task in this phase has returned. -/
def isFinished : Phase → Bool
  | .finished _ => true
  | _ => false

/-- Number of network calls in flight. -/
def inFlight (s : SchedState) : Nat := s.tasks.countP isCalling

/-- Number of tasks holding a semaphore slot. -/
def holdingCount (s : SchedState) : Nat := s.tasks.countP holdsSlot

/-- The loop state right after `main` launches all tasks (src lines 284,
297-302): the limiter has all `cap` slots free and every task is waiting. -/
def schedInit (cap n : Nat) : SchedState := ⟨cap, List.replicate n Phase.waiting⟩

/-- States the event loop can reach from the initial state. -/
def SchedReachable (cap n : Nat) (s : SchedState) : Prop :=
  Relation.ReflTransGen SchedStep (schedInit cap n) s

/-! ### Character and list helper lemmas -/

lemma jsonWs_pyWs {c : Char} (h : isJsonWs c = true) : isPyWs c = true := by
  unfold isJsonWs at h
  unfold isPyWs
  simp only [decide_eq_true_eq] at h ⊢
  tauto

lemma jsonWs_ne_ob {c : Char} (h : isJsonWs c = true) : c ≠ obChar := by
  intro he
  rw [he] at h
  exact absurd h (by decide)

lemma jsonWs_ne_cb {c : Char} (h : isJsonWs c = true) : c ≠ cbChar := by
  intro he
  rw [he] at h
  exact absurd h (by decide)

lemma jsonWs_ne_bt {c : Char} (h : isJsonWs c = true) : c ≠ btChar := by
  intro he
  rw [he] at h
  exact absurd h (by decide)

lemma pyWs_ne_ob {c : Char} (h : isPyWs c = true) : c ≠ obChar := by
  intro he
  rw [he] at h
  exact absurd h (by decide)

lemma pyWs_ne_cb {c : Char} (h : isPyWs c = true) : c ≠ cbChar := by
  intro he
  rw [he] at h
  exact absurd h (by decide)

lemma pyWs_ne_bt {c : Char} (h : isPyWs c = true) : c ≠ btChar := by
  intro he
  rw [he] at h
  exact absurd h (by decide)

lemma dropWhile_append_cons {p : Char → Bool} (xs : List Char) {c : Char}
    (ys : List Char) (hc : p c = false) :
    (xs ++ c :: ys).dropWhile p = xs.dropWhile p ++ c :: ys := by
  rw [List.dropWhile_append]
  split
  next h =>
    have hx : xs.dropWhile p = [] := by
      cases hx : xs.dropWhile p with
      | nil => rfl
      | cons a t => rw [hx] at h; simp at h
    rw [hx, List.dropWhile_cons_of_neg (by simp [hc])]
    rfl
  next => rfl

lemma dropWhile_all_nil {p : Char → Bool} {xs : List Char}
    (h : ∀ a ∈ xs, p a = true) : xs.dropWhile p = [] := by
  induction xs with
  | nil => rfl
  | cons a t ih =>
    rw [List.dropWhile_cons_of_pos (h a (List.mem_cons_self a t))]
    exact ih (fun b hb => h b (List.mem_cons_of_mem a hb))

lemma dropTrailing_append (p : Char → Bool) (z : List Char) {d : Char}
    (y : List Char) (hd : p d = false) :
    dropTrailing p (z ++ d :: y) = z ++ d :: dropTrailing p y := by
  unfold dropTrailing
  rw [show (z ++ d :: y).reverse = y.reverse ++ d :: z.reverse by simp,
    dropWhile_append_cons _ _ hd]
  simp

lemma stripWith_decomp (p : Char → Bool) (x mid y : List Char) {c d : Char}
    (hc : p c = false) (hd : p d = false) :
    stripWith p (x ++ (c :: (mid ++ [d])) ++ y) =
      x.dropWhile p ++ (c :: (mid ++ [d])) ++ dropTrailing p y := by
  unfold stripWith
  rw [show x ++ (c :: (mid ++ [d])) ++ y = x ++ c :: (mid ++ d :: y) by simp,
    dropWhile_append_cons x _ hc,
    show x.dropWhile p ++ c :: (mid ++ d :: y)
      = (x.dropWhile p ++ c :: mid) ++ d :: y by simp,
    dropTrailing_append p _ y hd]
  simp

lemma dropTrailing_all_nil {p : Char → Bool} {xs : List Char}
    (h : ∀ a ∈ xs, p a = true) : dropTrailing p xs = [] := by
  unfold dropTrailing
  rw [dropWhile_all_nil (by intro a ha; exact h a (List.mem_reverse.mp ha))]
  rfl

lemma stripWith_ws_core (p : Char → Bool) {w1 w2 : List Char} (mid : List Char)
    {c d : Char} (hc : p c = false) (hd : p d = false)
    (h1 : ∀ a ∈ w1, p a = true) (h2 : ∀ a ∈ w2, p a = true) :
    stripWith p (w1 ++ (c :: (mid ++ [d])) ++ w2) = c :: (mid ++ [d]) := by
  rw [stripWith_decomp p w1 mid w2 hc hd, dropWhile_all_nil h1,
    dropTrailing_all_nil h2]
  simp

lemma stripWith_core (p : Char → Bool) (mid : List Char) {c d : Char}
    (hc : p c = false) (hd : p d = false) :
    stripWith p (c :: (mid ++ [d])) = c :: (mid ++ [d]) := by
  have h0 := @stripWith_ws_core p [] [] mid c d hc hd
    (by intro a ha; cases ha) (by intro a ha; cases ha)
  simpa using h0

lemma subFenceStart_eq_self {cs : List Char}
    (h : ∀ c t, cs = c :: t → c ≠ btChar) : subFenceStart cs = cs := by
  unfold subFenceStart
  cases cs with
  | nil => simp [fenceJson, fence3]
  | cons c t =>
    have hc : c ≠ btChar := h c t rfl
    have h7 : ¬ (c :: t).take 7 = fenceJson := by
      rw [List.take_succ_cons]
      intro he
      injection he with h1 _
      exact hc h1
    have h3 : ¬ (c :: t).take 3 = fence3 := by
      rw [List.take_succ_cons]
      intro he
      injection he with h1 _
      exact hc h1
    rw [if_neg h7, if_neg h3]

lemma subFenceEnd_eq_self {cs : List Char}
    (h : ∀ c t, cs.reverse.dropWhile isPyWs = c :: t → c ≠ btChar) :
    subFenceEnd cs = cs := by
  unfold subFenceEnd
  cases hr : cs.reverse.dropWhile isPyWs with
  | nil => simp [fence3]
  | cons c t =>
    have hc : c ≠ btChar := h c t hr
    have h3 : ¬ (c :: t).take 3 = fence3 := by
      rw [List.take_succ_cons]
      intro he
      injection he with h1 _
      exact hc h1
    rw [if_neg h3]

lemma braceSpan_decomp {A B : List Char} (mid : List Char)
    (hA : ∀ c ∈ A, c ≠ obChar) (hB : ∀ c ∈ B, c ≠ cbChar) :
    braceSpan (A ++ (obChar :: (mid ++ [cbChar])) ++ B) =
      some (obChar :: (mid ++ [cbChar])) := by
  have htail : (A ++ (obChar :: (mid ++ [cbChar])) ++ B).dropWhile
      (fun c => decide (c ≠ obChar)) = obChar :: (mid ++ cbChar :: B) := by
    rw [show A ++ (obChar :: (mid ++ [cbChar])) ++ B
        = A ++ obChar :: (mid ++ cbChar :: B) by simp]
    rw [List.dropWhile_append_of_pos (by intro a ha; simpa using hA a ha)]
    rw [List.dropWhile_cons_of_neg (by simp)]
  have hrev : (obChar :: (mid ++ cbChar :: B)).reverse
      = B.reverse ++ cbChar :: (mid.reverse ++ [obChar]) := by simp
  have hrev2 : (B.reverse ++ cbChar :: (mid.reverse ++ [obChar])).dropWhile
      (fun c => decide (c ≠ cbChar)) = cbChar :: (mid.reverse ++ [obChar]) := by
    rw [List.dropWhile_append_of_pos
      (by intro a ha; simpa using hB a (List.mem_reverse.mp ha))]
    rw [List.dropWhile_cons_of_neg (by simp)]
  unfold braceSpan
  rw [htail, hrev, hrev2]
  simp

lemma loadsC_core {mid : List Char} {o : List (String × Json)}
    (hparse : parseValue (4 * (obChar :: (mid ++ [cbChar])).length + 8)
      (obChar :: (mid ++ [cbChar])) = some (Json.obj o, [])) :
    loadsC (obChar :: (mid ++ [cbChar])) = some (Json.obj o) := by
  unfold loadsC
  rw [stripWith_core isJsonWs mid (by decide) (by decide), hparse]
  rfl

lemma loadsC_ws_core {w1 w2 mid : List Char} {o : List (String × Json)}
    (h1 : ∀ a ∈ w1, isJsonWs a = true) (h2 : ∀ a ∈ w2, isJsonWs a = true)
    (hparse : parseValue (4 * (obChar :: (mid ++ [cbChar])).length + 8)
      (obChar :: (mid ++ [cbChar])) = some (Json.obj o, [])) :
    loadsC (w1 ++ (obChar :: (mid ++ [cbChar])) ++ w2) = some (Json.obj o) := by
  unfold loadsC
  rw [stripWith_ws_core isJsonWs mid (by decide) (by decide) h1 h2, hparse]
  rfl

lemma dropWhile_head_not (p : Char → Bool) (l : List Char) :
    l.dropWhile p = [] ∨ ∃ c t, l.dropWhile p = c :: t ∧ p c = false := by
  induction l with
  | nil => left; rfl
  | cons a t ih =>
    by_cases h : p a
    · rw [List.dropWhile_cons_of_pos h]; exact ih
    · right; exact ⟨a, t, List.dropWhile_cons_of_neg h, by simpa using h⟩

lemma mem_dropTrailing {p : Char → Bool} {c : Char} {l : List Char}
    (h : c ∈ dropTrailing p l) : c ∈ l := by
  unfold dropTrailing at h
  rw [List.mem_reverse] at h
  exact List.mem_reverse.mp ((List.dropWhile_sublist _).subset h)

/-! ### The three robust-parse paths of `clean_json_response` -/

lemma clean_of_ws_core {jd w1 w2 mid : List Char} {o : List (String × Json)}
    (hj : jd = w1 ++ (obChar :: (mid ++ [cbChar])) ++ w2)
    (hw1 : ∀ c ∈ w1, isJsonWs c = true) (hw2 : ∀ c ∈ w2, isJsonWs c = true)
    (hparse : parseValue (4 * (obChar :: (mid ++ [cbChar])).length + 8)
      (obChar :: (mid ++ [cbChar])) = some (Json.obj o, [])) :
    cleanCore (stripWith isPyWs (subFenceEnd (subFenceStart (stripWith isPyWs jd))))
      = some (Json.obj o) := by
  have hw1' : ∀ c ∈ w1, isPyWs c = true := fun c hc => jsonWs_pyWs (hw1 c hc)
  have hw2' : ∀ c ∈ w2, isPyWs c = true := fun c hc => jsonWs_pyWs (hw2 c hc)
  have t0 : stripWith isPyWs jd = obChar :: (mid ++ [cbChar]) := by
    rw [hj]
    exact stripWith_ws_core isPyWs mid (by decide) (by decide) hw1' hw2'
  have s1 : subFenceStart (obChar :: (mid ++ [cbChar])) = obChar :: (mid ++ [cbChar]) := by
    apply subFenceStart_eq_self
    intro c t he
    injection he with h1 _
    rw [← h1]
    decide
  have hrevcore : (obChar :: (mid ++ [cbChar])).reverse
      = cbChar :: (mid.reverse ++ [obChar]) := by simp
  have s2 : subFenceEnd (obChar :: (mid ++ [cbChar])) = obChar :: (mid ++ [cbChar]) := by
    apply subFenceEnd_eq_self
    intro c t he
    rw [hrevcore, List.dropWhile_cons_of_neg (by decide)] at he
    injection he with h1 _
    rw [← h1]
    decide
  rw [t0, s1, s2, stripWith_core isPyWs mid (by decide) (by decide)]
  unfold cleanCore
  rw [loadsC_core hparse]

lemma clean_of_fenced {jd w1 w2 mid : List Char} {o : List (String × Json)}
    (hj : jd = w1 ++ (obChar :: (mid ++ [cbChar])) ++ w2)
    (hw1 : ∀ c ∈ w1, isJsonWs c = true) (hw2 : ∀ c ∈ w2, isJsonWs c = true)
    (hparse : parseValue (4 * (obChar :: (mid ++ [cbChar])).length + 8)
      (obChar :: (mid ++ [cbChar])) = some (Json.obj o, [])) :
    cleanCore (stripWith isPyWs (subFenceEnd (subFenceStart
      (stripWith isPyWs (fenceJson ++ nlChar :: (jd ++ nlChar :: fence3))))))
      = some (Json.obj o) := by
  have hw1' : ∀ c ∈ w1, isPyWs c = true := fun c hc => jsonWs_pyWs (hw1 c hc)
  have hw2' : ∀ c ∈ w2, isPyWs c = true := fun c hc => jsonWs_pyWs (hw2 c hc)
  have hF : fenceJson ++ nlChar :: (jd ++ nlChar :: fence3)
      = btChar :: (([btChar, btChar, 'j', 's', 'o', 'n'] ++
          (nlChar :: jd ++ [nlChar, btChar, btChar])) ++ [btChar]) := by
    simp [fenceJson, fence3]
  have t0 : stripWith isPyWs (fenceJson ++ nlChar :: (jd ++ nlChar :: fence3))
      = fenceJson ++ nlChar :: (jd ++ nlChar :: fence3) := by
    rw [hF]
    exact stripWith_core isPyWs _ (by decide) (by decide)
  have s1 : subFenceStart (fenceJson ++ nlChar :: (jd ++ nlChar :: fence3))
      = obChar :: ((mid ++ [cbChar]) ++ (w2 ++ nlChar :: fence3)) := by
    unfold subFenceStart
    rw [if_pos (List.take_left' (show fenceJson.length = 7 by decide))]
    rw [List.drop_left' (show fenceJson.length = 7 by decide)]
    rw [List.dropWhile_cons_of_pos (by decide)]
    rw [hj]
    rw [show (w1 ++ (obChar :: (mid ++ [cbChar])) ++ w2) ++ nlChar :: fence3
        = w1 ++ obChar :: ((mid ++ [cbChar]) ++ (w2 ++ nlChar :: fence3)) by simp]
    rw [List.dropWhile_append_of_pos hw1']
    rw [List.dropWhile_cons_of_neg (by decide)]
  have hrev : (obChar :: ((mid ++ [cbChar]) ++ (w2 ++ nlChar :: fence3))).reverse
      = btChar :: (btChar :: (btChar :: (nlChar ::
          (w2.reverse ++ (cbChar :: (mid.reverse ++ [obChar])))))) := by
    simp [fence3]
  have s2 : subFenceEnd (obChar :: ((mid ++ [cbChar]) ++ (w2 ++ nlChar :: fence3)))
      = obChar :: (mid ++ [cbChar]) := by
    unfold subFenceEnd
    rw [hrev]
    rw [List.dropWhile_cons_of_neg (by decide)]
    rw [if_pos (by simp [fence3])]
    simp only [List.drop_succ_cons, List.drop_zero]
    rw [List.dropWhile_cons_of_pos (by decide)]
    rw [List.dropWhile_append_of_pos
      (by intro a ha; exact hw2' a (List.mem_reverse.mp ha))]
    rw [List.dropWhile_cons_of_neg (by decide)]
    simp
  rw [t0, s1, s2, stripWith_core isPyWs mid (by decide) (by decide)]
  unfold cleanCore
  rw [loadsC_core hparse]

lemma clean_of_prose {jd w1 w2 mid p1 p2 : List Char} {o : List (String × Json)}
    (hj : jd = w1 ++ (obChar :: (mid ++ [cbChar])) ++ w2)
    (hw1 : ∀ c ∈ w1, isJsonWs c = true) (hw2 : ∀ c ∈ w2, isJsonWs c = true)
    (hparse : parseValue (4 * (obChar :: (mid ++ [cbChar])).length + 8)
      (obChar :: (mid ++ [cbChar])) = some (Json.obj o, []))
    (hp1 : ∀ c ∈ p1, c ≠ obChar ∧ c ≠ btChar)
    (hp2 : ∀ c ∈ p2, c ≠ cbChar ∧ c ≠ btChar)
    (hnd : loadsC (stripWith isPyWs (p1 ++ jd ++ p2)) = none) :
    cleanCore (stripWith isPyWs (subFenceEnd (subFenceStart
      (stripWith isPyWs (p1 ++ jd ++ p2))))) = some (Json.obj o) := by
  have hw1' : ∀ c ∈ w1, isPyWs c = true := fun c hc => jsonWs_pyWs (hw1 c hc)
  have hw2' : ∀ c ∈ w2, isPyWs c = true := fun c hc => jsonWs_pyWs (hw2 c hc)
  have hsplit : p1 ++ jd ++ p2
      = (p1 ++ w1) ++ (obChar :: (mid ++ [cbChar])) ++ (w2 ++ p2) := by
    rw [hj]; simp
  have ht0 : stripWith isPyWs (p1 ++ jd ++ p2)
      = (p1 ++ w1).dropWhile isPyWs ++ (obChar :: (mid ++ [cbChar])) ++
        dropTrailing isPyWs (w2 ++ p2) := by
    rw [hsplit]
    exact stripWith_decomp isPyWs _ mid _ (by decide) (by decide)
  have hA0mem : ∀ c ∈ (p1 ++ w1).dropWhile isPyWs, c ≠ obChar ∧ c ≠ btChar := by
    intro c hc
    rcases List.mem_append.mp ((List.dropWhile_sublist _).subset hc) with h | h
    · exact hp1 c h
    · exact ⟨jsonWs_ne_ob (hw1 c h), jsonWs_ne_bt (hw1 c h)⟩
  have hB0mem : ∀ c ∈ dropTrailing isPyWs (w2 ++ p2), c ≠ cbChar ∧ c ≠ btChar := by
    intro c hc
    rcases List.mem_append.mp (mem_dropTrailing hc) with h | h
    · exact ⟨jsonWs_ne_cb (hw2 c h), jsonWs_ne_bt (hw2 c h)⟩
    · exact hp2 c h
  have hB0rev : (dropTrailing isPyWs (w2 ++ p2)).reverse
      = (w2 ++ p2).reverse.dropWhile isPyWs := by
    unfold dropTrailing
    rw [List.reverse_reverse]
  have s1 : subFenceStart ((p1 ++ w1).dropWhile isPyWs ++ (obChar :: (mid ++ [cbChar])) ++
        dropTrailing isPyWs (w2 ++ p2))
      = (p1 ++ w1).dropWhile isPyWs ++ (obChar :: (mid ++ [cbChar])) ++
        dropTrailing isPyWs (w2 ++ p2) := by
    apply subFenceStart_eq_self
    intro c t he
    rcases dropWhile_head_not isPyWs (p1 ++ w1) with hnil | ⟨a, t', ha, _⟩
    · rw [hnil] at he
      simp only [List.nil_append, List.cons_append] at he
      injection he with h1 _
      rw [← h1]
      decide
    · rw [ha] at he
      simp only [List.cons_append] at he
      injection he with h1 _
      rw [← h1]
      exact (hA0mem a (by rw [ha]; exact List.mem_cons_self a t')).2
  have s2 : subFenceEnd ((p1 ++ w1).dropWhile isPyWs ++ (obChar :: (mid ++ [cbChar])) ++
        dropTrailing isPyWs (w2 ++ p2))
      = (p1 ++ w1).dropWhile isPyWs ++ (obChar :: (mid ++ [cbChar])) ++
        dropTrailing isPyWs (w2 ++ p2) := by
    apply subFenceEnd_eq_self
    intro c t he
    have hrevt0 : ((p1 ++ w1).dropWhile isPyWs ++ (obChar :: (mid ++ [cbChar])) ++
          dropTrailing isPyWs (w2 ++ p2)).reverse
        = (dropTrailing isPyWs (w2 ++ p2)).reverse ++
          cbChar :: (mid.reverse ++ obChar :: ((p1 ++ w1).dropWhile isPyWs).reverse) := by
      simp
    rw [hrevt0] at he
    rcases dropWhile_head_not isPyWs ((w2 ++ p2).reverse) with hnil | ⟨b, tb, hb, hpb⟩
    · rw [hB0rev, hnil] at he
      rw [List.nil_append, List.dropWhile_cons_of_neg (by decide)] at he
      injection he with h1 _
      rw [← h1]
      decide
    · rw [hB0rev, hb] at he
      rw [List.cons_append, List.dropWhile_cons_of_neg (by simp [hpb])] at he
      injection he with h1 _
      rw [← h1]
      refine (hB0mem b ?_).2
      rw [← List.mem_reverse, hB0rev, hb]
      exact List.mem_cons_self b tb
  have e1 : ((p1 ++ w1).dropWhile isPyWs).dropWhile isPyWs
      = (p1 ++ w1).dropWhile isPyWs := by
    rcases dropWhile_head_not isPyWs (p1 ++ w1) with hnil | ⟨a, t', ha, hpa⟩
    · rw [hnil]; rfl
    · rw [ha, List.dropWhile_cons_of_neg (by simp [hpa])]
  have e2 : dropTrailing isPyWs (dropTrailing isPyWs (w2 ++ p2))
      = dropTrailing isPyWs (w2 ++ p2) := by
    unfold dropTrailing
    rw [List.reverse_reverse]
    rcases dropWhile_head_not isPyWs ((w2 ++ p2).reverse) with hnil | ⟨b, tb, hb, hpb⟩
    · rw [hnil]; rfl
    · rw [hb, List.dropWhile_cons_of_neg (by simp [hpb])]
  have tfix : stripWith isPyWs ((p1 ++ w1).dropWhile isPyWs ++
        (obChar :: (mid ++ [cbChar])) ++ dropTrailing isPyWs (w2 ++ p2))
      = (p1 ++ w1).dropWhile isPyWs ++ (obChar :: (mid ++ [cbChar])) ++
        dropTrailing isPyWs (w2 ++ p2) := by
    rw [stripWith_decomp isPyWs _ mid _ (by decide) (by decide), e1, e2]
  have hnd0 : loadsC ((p1 ++ w1).dropWhile isPyWs ++ (obChar :: (mid ++ [cbChar])) ++
        dropTrailing isPyWs (w2 ++ p2)) = none := by
    rw [← ht0]; exact hnd
  rw [ht0, s1, s2, tfix]
  unfold cleanCore
  rw [hnd0]
  rw [braceSpan_decomp mid (fun c hc => (hA0mem c hc).1) (fun c hc => (hB0mem c hc).1)]
  exact loadsC_core hparse

/-- C2 (counterexample): the text decodes directly, but surrounded by prose
whose trailing part contains a closing brace the parser raises instead of
returning the same structured result, because the retry decodes the greedy
first-brace-to-last-brace span, not the first balanced one. -/
theorem c2_prose_counterexample :
    clean_json_response "\x7b\"legalReference\": \"a\", \"analysis\": \"b\"\x7d"
      = some (Json.obj [("legalReference", Json.str "a"), ("analysis", Json.str "b")]) ∧
    clean_json_response
        "Result: \x7b\"legalReference\": \"a\", \"analysis\": \"b\"\x7d done\x7d"
      = none :=
  ⟨rfl, rfl⟩

/-- C2 (amended): for every text that decodes directly to an object with the
two required fields, the parser returns the same structured result for the
text itself and for the text wrapped in code-fence markers; in the prose case
it decodes the greedy span from the first opening brace to the last closing
brace, so the same result is returned provided the leading prose contains no
opening brace or backtick, the trailing prose contains no closing brace or
backtick, and the combined text does not itself decode directly. -/
theorem c2_parser_robustness_amended
    (j : String) (w1 w2 mid p1 p2 : List Char) (o : List (String × Json))
    (hj : j.data = w1 ++ (obChar :: (mid ++ [cbChar])) ++ w2)
    (hw1 : ∀ c ∈ w1, isJsonWs c = true) (hw2 : ∀ c ∈ w2, isJsonWs c = true)
    (hparse : parseValue (4 * (obChar :: (mid ++ [cbChar])).length + 8)
      (obChar :: (mid ++ [cbChar])) = some (Json.obj o, []))
    (hfield1 : (lookupLast o "legalReference").isSome = true)
    (hfield2 : (lookupLast o "analysis").isSome = true)
    (hp1 : ∀ c ∈ p1, c ≠ obChar ∧ c ≠ btChar)
    (hp2 : ∀ c ∈ p2, c ≠ cbChar ∧ c ≠ btChar)
    (hnd : loadsC (stripWith isPyWs (p1 ++ j.data ++ p2)) = none) :
    clean_json_response j = some (Json.obj o) ∧
    clean_json_response (String.mk (fenceJson ++ nlChar :: (j.data ++ nlChar :: fence3)))
      = some (Json.obj o) ∧
    clean_json_response (String.mk (p1 ++ j.data ++ p2)) = some (Json.obj o) := by
  refine ⟨?_, ?_, ?_⟩
  · exact clean_of_ws_core hj hw1 hw2 hparse
  · exact clean_of_fenced hj hw1 hw2 hparse
  · exact clean_of_prose hj hw1 hw2 hparse hp1 hp2 hnd

/-- C2 (witness): the amended theorem applied at a concrete input. -/
theorem c2_parser_robustness_amended_check :
    clean_json_response "Answer: \x7b\"legalReference\": \"A5\", \"analysis\": \"ok\"\x7d thanks."
      = some (Json.obj [("legalReference", Json.str "A5"), ("analysis", Json.str "ok")]) := by
  have h := c2_parser_robustness_amended
    "\x7b\"legalReference\": \"A5\", \"analysis\": \"ok\"\x7d"
    [] [] ("\"legalReference\": \"A5\", \"analysis\": \"ok\"").data
    ("Answer: ").data (" thanks.").data
    [("legalReference", Json.str "A5"), ("analysis", Json.str "ok")]
    rfl (by intro c hc; cases hc) (by intro c hc; cases hc)
    rfl rfl rfl (by decide) (by decide) rfl
  exact h.2.2

/-! ### C1: completeness filter -/

lemma toProcessAux_eq {qs : List Record}
    (h : ∀ q ∈ qs, (analysisLenOf q).isSome = true) :
    toProcessAux qs = some
      (qs.filter (fun q => decide (analysisLenD q ≤ SKIP_THRESHOLD)),
       qs.countP (fun q => decide (SKIP_THRESHOLD < analysisLenD q))) := by
  induction qs with
  | nil => rfl
  | cons q rest ih =>
    obtain ⟨n, hn⟩ := Option.isSome_iff_exists.mp (h q (List.mem_cons_self q rest))
    have hrest := ih (fun r hr => h r (List.mem_cons_of_mem q hr))
    have hd : analysisLenD q = n := by unfold analysisLenD; rw [hn]; rfl
    unfold toProcessAux
    rw [hn, hrest]
    dsimp only
    rw [List.filter_cons, List.countP_cons]
    by_cases hgt : SKIP_THRESHOLD < n
    · rw [if_pos hgt]
      simp [hd, hgt, Nat.not_le.mpr hgt]
    · rw [if_neg hgt]
      simp [hd, hgt, Nat.not_lt.mp hgt]

/-- A record whose analysis is exactly 500 characters long. -/
def rec500 : Record :=
  { id := 1, question := "q1", options := ["a", "b", "c", "d"], correctAnswer := 0,
    scenario := none, explanation := none, legalReference := none,
    analysis := some (Json.str (String.mk (List.replicate 500 'x'))) }

/-- A record whose analysis is exactly 501 characters long. -/
def rec501 : Record :=
  { id := 2, question := "q2", options := ["a", "b", "c", "d"], correctAnswer := 0,
    scenario := none, explanation := none, legalReference := none,
    analysis := some (Json.str (String.mk (List.replicate 501 'x'))) }

/-- C1: a record is selected as a work item iff the length of its analysis
field (0 when absent, matching the empty-string default) is at most 500
characters; a record with a 500-character analysis is selected and one with
501 characters is skipped. -/
theorem c1_completeness_filter (qs : List Record)
    (h : ∀ q ∈ qs, (analysisLenOf q).isSome = true) :
    (∃ tp sk, toProcessAux qs = some (tp, sk) ∧
      (∀ q, q ∈ tp ↔ q ∈ qs ∧ analysisLenD q ≤ SKIP_THRESHOLD)) ∧
    analysisLenD rec500 = 500 ∧ analysisLenD rec501 = 501 ∧
    toProcessAux [rec500, rec501] = some ([rec500], 1) := by
  refine ⟨⟨_, _, toProcessAux_eq h, ?_⟩, rfl, rfl, rfl⟩
  intro q
  rw [List.mem_filter]
  simp

/-- C1 (witness): the filter theorem applied at the two boundary records. -/
theorem c1_completeness_filter_check :
    ∃ tp sk, toProcessAux [rec500, rec501] = some (tp, sk) ∧
      (∀ q, q ∈ tp ↔ q ∈ [rec500, rec501] ∧ analysisLenD q ≤ SKIP_THRESHOLD) :=
  (c1_completeness_filter [rec500, rec501]
    (by
      intro q hq
      simp only [List.mem_cons, List.not_mem_nil, or_false] at hq
      rcases hq with rfl | rfl <;> rfl)).1

/-! ### C3, C4, C10: the worker's retry loop -/

lemma validateFields_ok {j j' : Json} (h : validateFields j = Except.ok j') :
    j' = j ∧ containsPy j "legalReference" = some true ∧
      containsPy j "analysis" = some true := by
  unfold validateFields at h
  split at h
  next => cases h
  next => cases h
  next heq1 =>
    split at h
    next => cases h
    next => cases h
    next heq2 =>
      injection h with h1
      exact ⟨h1.symm, heq1, heq2⟩

lemma attemptOutcome_ok {q : Record} {net : Nat → Except PyErr String} {a : Nat}
    {j : Json} (h : attemptOutcome q net a = Except.ok j) :
    containsPy j "legalReference" = some true ∧
      containsPy j "analysis" = some true := by
  unfold attemptOutcome at h
  split at h
  next => cases h
  next =>
    split at h
    next => cases h
    next =>
      split at h
      next => cases h
      next j0 heq =>
        obtain ⟨he, h1, h2⟩ := validateFields_ok h
        rw [he]
        exact ⟨h1, h2⟩

lemma attemptLoop_spec (q : Record) (net : Nat → Except PyErr String) :
    ∀ r a, 0 < r →
      a ≤ (attemptLoop q net a r).2.1 ∧ (attemptLoop q net a r).2.1 < a + r ∧
      (attemptLoop q net a r).2.2
        = (List.range' a ((attemptLoop q net a r).2.1 - a)).map (fun i => 2 ^ i) := by
  intro r
  induction r with
  | zero => intro a h; exact absurd h (by omega)
  | succ r ih =>
    intro a _
    cases hatt : attemptOutcome q net a with
    | ok j =>
      refine ⟨?_, ?_, ?_⟩ <;> simp [attemptLoop, hatt]
    | error e =>
      by_cases hr : r = 0
      · subst hr
        refine ⟨?_, ?_, ?_⟩ <;> simp [attemptLoop, hatt]
      · obtain ⟨h1, h2, h3⟩ := ih (a + 1) (Nat.pos_of_ne_zero hr)
        have hred : attemptLoop q net a (r + 1)
            = ((attemptLoop q net (a + 1) r).1, (attemptLoop q net (a + 1) r).2.1,
               2 ^ a :: (attemptLoop q net (a + 1) r).2.2) := by
          simp [attemptLoop, hatt, hr]
        rw [hred]
        dsimp only
        refine ⟨by omega, by omega, ?_⟩
        have hsub : (attemptLoop q net (a + 1) r).2.1 - a
            = ((attemptLoop q net (a + 1) r).2.1 - (a + 1)) + 1 := by omega
        rw [hsub, List.range'_succ, List.map_cons, ← h3]

/-- C3: the worker makes at most 3 attempts, the attempt counter starting at
1, and after each failed non-final attempt waits exactly `2 ^ attempt` time
units; an item whose first two attempts fail and whose third succeeds ends
with `(identifier, result)` emitted, 3 attempts recorded and waits `[2, 4]`,
the result carrying both required fields. -/
theorem c3_retry_backoff (q : Record) (net : Nat → Except PyErr String)
    (e1 e2 : PyErr) (j : Json)
    (h1 : attemptOutcome q net 1 = Except.error e1)
    (h2 : attemptOutcome q net 2 = Except.error e2)
    (h3 : attemptOutcome q net 3 = Except.ok j) :
    (∀ (q' : Record) (net' : Nat → Except PyErr String),
      1 ≤ (process_one q' net').attempts ∧
      (process_one q' net').attempts ≤ MAX_RETRIES ∧
      (process_one q' net').waits
        = (List.range' 1 ((process_one q' net').attempts - 1)).map (fun i => 2 ^ i)) ∧
    process_one q net
      = { emission := (q.id, some j), attempts := 3, waits := [2, 4] } ∧
    containsPy j "legalReference" = some true ∧
    containsPy j "analysis" = some true := by
  have hgen : ∀ (q' : Record) (net' : Nat → Except PyErr String),
      1 ≤ (process_one q' net').attempts ∧
      (process_one q' net').attempts ≤ MAX_RETRIES ∧
      (process_one q' net').waits
        = (List.range' 1 ((process_one q' net').attempts - 1)).map (fun i => 2 ^ i) := by
    intro q' net'
    obtain ⟨ha, hb, hc⟩ := attemptLoop_spec q' net' MAX_RETRIES 1 (by decide)
    have hE1 : (process_one q' net').attempts
        = (attemptLoop q' net' 1 MAX_RETRIES).2.1 := rfl
    have hE2 : (process_one q' net').waits
        = (attemptLoop q' net' 1 MAX_RETRIES).2.2 := rfl
    rw [hE1, hE2]
    have hM : MAX_RETRIES = 3 := rfl
    exact ⟨ha, by omega, hc⟩
  have hL : attemptLoop q net 1 MAX_RETRIES = (some j, 3, [2, 4]) := by
    show attemptLoop q net 1 3 = _
    simp [attemptLoop, h1, h2, h3]
  refine ⟨hgen, ?_, attemptOutcome_ok h3⟩
  simp [process_one, hL]

/-- A record with well-formed content, used for concrete runs. -/
def q0 : Record :=
  { id := 7, question := "When?", options := ["a", "b", "c", "d"], correctAnswer := 1,
    scenario := none, explanation := some "e", legalReference := none,
    analysis := none }

/-- A network oracle failing twice, then returning a well-formed response. -/
def net0 : Nat → Except PyErr String := fun a =>
  if a = 3 then
    Except.ok "\x7b\"legalReference\": \"GDPR Article 5\", \"analysis\": \"essay\"\x7d"
  else Except.error PyErr.netError

/-- The structured result `net0`'s final response decodes to. -/
def j0res : Json :=
  Json.obj [("legalReference", Json.str "GDPR Article 5"), ("analysis", Json.str "essay")]

/-- C3 (witness): the retry theorem applied at a concrete item and oracle. -/
theorem c3_retry_backoff_check :
    process_one q0 net0 = { emission := (q0.id, some j0res), attempts := 3, waits := [2, 4] } :=
  (c3_retry_backoff q0 net0 PyErr.netError PyErr.netError j0res rfl rfl rfl).2.1

/-- C4: an item whose 3 attempts all fail emits `(identifier, none)`; the
driver's merge step only increments the failure counter, leaving the
collection — in particular that record's fields — exactly as loaded; the
batch continues with the remaining results; and the record's selection by the
completeness filter is unchanged for a subsequent run. -/
theorem c4_exhausted_item (q : Record) (net : Nat → Except PyErr String)
    (e1 e2 e3 : PyErr)
    (h1 : attemptOutcome q net 1 = Except.error e1)
    (h2 : attemptOutcome q net 2 = Except.error e2)
    (h3 : attemptOutcome q net 3 = Except.error e3)
    (st : DriverState) (rest : List (Int × Option Json)) :
    process_one q net = { emission := (q.id, none), attempts := 3, waits := [2, 4] } ∧
    mergeStep st (q.id, none) = some { st with failed := st.failed + 1 } ∧
    runResults st ((q.id, none) :: rest)
      = runResults { st with failed := st.failed + 1 } rest ∧
    ({ st with failed := st.failed + 1 } : DriverState).qs = st.qs ∧
    toProcessAux ({ st with failed := st.failed + 1 } : DriverState).qs
      = toProcessAux st.qs := by
  refine ⟨?_, rfl, rfl, rfl, rfl⟩
  have hL : attemptLoop q net 1 MAX_RETRIES = (none, 3, [2, 4]) := by
    show attemptLoop q net 1 3 = _
    simp [attemptLoop, h1, h2, h3]
  simp [process_one, hL]

/-- A network oracle that always fails. -/
def netFail : Nat → Except PyErr String := fun _ => Except.error PyErr.netError

/-- C4 (witness): the exhaustion theorem applied at a concrete item. -/
theorem c4_exhausted_item_check :
    process_one q0 netFail
      = { emission := (q0.id, none), attempts := 3, waits := [2, 4] } :=
  (c4_exhausted_item q0 netFail PyErr.netError PyErr.netError PyErr.netError
    rfl rfl rfl (initState []) []).1

lemma attemptLoopE_ok (q : Record) (net : Nat → Except PyErr String) :
    ∀ r a, 0 < r → ∃ res : Option Json,
      attemptLoopE q net a r = Except.ok (q.id, res) ∧
      (res = none ∨ ∃ j, res = some j ∧ containsPy j "legalReference" = some true ∧
        containsPy j "analysis" = some true) := by
  intro r
  induction r with
  | zero => intro a h; exact absurd h (by omega)
  | succ r ih =>
    intro a _
    cases hatt : attemptOutcome q net a with
    | ok j =>
      exact ⟨some j, by simp [attemptLoopE, catchAll, hatt],
        Or.inr ⟨j, rfl, attemptOutcome_ok hatt⟩⟩
    | error e =>
      by_cases hr : r = 0
      · subst hr
        exact ⟨none, by simp [attemptLoopE, catchAll, hatt], Or.inl rfl⟩
      · obtain ⟨res, hres, hro⟩ := ih (a + 1) (Nat.pos_of_ne_zero hr)
        exact ⟨res, by simp [attemptLoopE, catchAll, hatt, hr, hres], hro⟩

/-- C10: for every record (the identifier field being part of the record
shape) and every behaviour of an attempt — network failure, parse failure,
missing response fields, out-of-range record data — the worker returns
normally with `(identifier, result)` or `(identifier, none)`; no exception
escapes the `except Exception` handler. -/
theorem c10_worker_no_escape (q : Record) (net : Nat → Except PyErr String) :
    ∃ res : Option Json, process_oneE q net = Except.ok (q.id, res) ∧
      (res = none ∨ ∃ j, res = some j ∧ containsPy j "legalReference" = some true ∧
        containsPy j "analysis" = some true) :=
  attemptLoopE_ok q net MAX_RETRIES 1 (by decide)

/-! ### C7: the request builder -/

lemma optionLines_isSome_of :
    ∀ (opts : List String) (i : Nat), i + opts.length ≤ 4 →
      ∃ ls, optionLines i opts = some ls := by
  intro opts
  induction opts with
  | nil => intro i _; exact ⟨[], rfl⟩
  | cons opt rest ih =>
    intro i hlen
    simp only [List.length_cons] at hlen
    cases habcd : abcdChars.get? i with
    | none =>
      have := List.get?_eq_none.mp habcd
      have hl : abcdChars.length = 4 := rfl
      omega
    | some c =>
      obtain ⟨ls, hls⟩ := ih (i + 1) (by omega)
      exact ⟨_, by unfold optionLines; rw [habcd, hls]⟩

lemma pyIndexABCD_isSome_of {i : Int} (h1 : -4 ≤ i) (h2 : i < 4) :
    ∃ c, pyIndexABCD i = some c := by
  unfold pyIndexABCD
  by_cases h0 : 0 ≤ i
  · rw [if_pos ⟨h0, h2⟩]
    cases habcd : abcdChars.get? i.toNat with
    | none =>
      have := List.get?_eq_none.mp habcd
      have hl : abcdChars.length = 4 := rfl
      omega
    | some c => exact ⟨c, rfl⟩
  · rw [if_neg (by tauto), if_pos ⟨h1, by omega⟩]
    cases habcd : abcdChars.get? (i + 4).toNat with
    | none =>
      have := List.get?_eq_none.mp habcd
      have hl : abcdChars.length = 4 := rfl
      omega
    | some c => exact ⟨c, rfl⟩

/-- A record whose correct-answer index is outside the option-letter string:
`'ABCD'[7]` raises IndexError inside the request builder. -/
def qBad : Record :=
  { id := 9, question := "q", options := ["a", "b", "c", "d"], correctAnswer := 7,
    scenario := none, explanation := none, legalReference := none, analysis := none }

/-- C7 (counterexample): the request builder is not total on all Records —
an out-of-range correct-answer index makes it raise (`none`), refuting
"no error paths" as universally stated. -/
theorem c7_totality_counterexample : build_user_prompt qBad = none := rfl

/-- C7 (amended): the request builder is pure and total for every Record
whose option list has at most 4 entries and whose correct-answer index lies
in the Python index range of the four-letter string (−4 ≤ idx < 4); the
static-context preamble always assembles, embedding the context blob
verbatim. -/
theorem c7_request_builder_amended (q : Record) (g : String)
    (hopt : q.options.length ≤ 4)
    (h1 : -4 ≤ q.correctAnswer) (h2 : q.correctAnswer < 4) :
    (∃ s, build_user_prompt q = some s) ∧
    (∃ pre post, build_system_prompt g = pre ++ (g ++ post)) := by
  constructor
  · obtain ⟨ls, hls⟩ := optionLines_isSome_of q.options 0 (by omega)
    obtain ⟨c, hc⟩ := pyIndexABCD_isSome_of h1 h2
    have hs : (build_user_prompt q).isSome = true := by
      unfold build_user_prompt
      rw [hls]
      dsimp only
      rw [hc]
      rfl
    exact Option.isSome_iff_exists.mp hs
  · exact ⟨sysPromptHead, sysPromptTail, String.append_assoc _ _ _⟩

/-- C7 (witness): the amended theorem applied at a concrete record. -/
theorem c7_request_builder_amended_check :
    ∃ s, build_user_prompt q0 = some s :=
  (c7_request_builder_amended q0 "GDPR" (by decide) (by decide) (by decide)).1

/-! ### C9: the admission limiter -/

lemma countP_replicate_waiting (n : Nat) :
    (List.replicate n Phase.waiting).countP holdsSlot = 0 := by
  induction n with
  | zero => rfl
  | succ n ih => simp [List.replicate_succ, List.countP_cons, holdsSlot, ih]

lemma schedStep_invariant {cap : Nat} {s s' : SchedState} (h : SchedStep s s')
    (hinv : s.sem + holdingCount s = cap) : s'.sem + holdingCount s' = cap := by
  cases h <;>
    (simp [holdingCount, List.countP_append, List.countP_cons, holdsSlot]
       at hinv ⊢ <;> omega)

lemma schedReachable_invariant {cap n : Nat} {s : SchedState}
    (h : SchedReachable cap n s) : s.sem + holdingCount s = cap := by
  induction h with
  | refl =>
    unfold schedInit holdingCount
    simp [countP_replicate_waiting]
  | tail _ hbc ih => exact schedStep_invariant hbc ih

lemma inFlight_le_holding (s : SchedState) : inFlight s ≤ holdingCount s := by
  unfold inFlight holdingCount
  induction s.tasks with
  | nil => simp
  | cons p rest ih =>
    rw [List.countP_cons, List.countP_cons]
    have : (if isCalling p then 1 else 0) ≤ (if holdsSlot p then 1 else 0) := by
      cases p <;> simp [isCalling, holdsSlot]
    omega

lemma no_new_finish {l1 l2 : List Phase} {x y : Phase} (hy : isFinished y = false)
    {i : Nat} {ph ph' : Phase}
    (hp : (l1 ++ x :: l2).get? i = some ph) (hf : isFinished ph = false)
    (hp' : (l1 ++ y :: l2).get? i = some ph') (hf' : isFinished ph' = true) :
    False := by
  by_cases hi : i < l1.length
  · rw [List.get?_append hi] at hp hp'
    rw [hp] at hp'
    injection hp' with he
    rw [he] at hf
    rw [hf] at hf'
    cases hf'
  · have hge : l1.length ≤ i := Nat.le_of_not_lt hi
    rw [List.get?_append_right hge] at hp hp'
    cases hik : i - l1.length with
    | zero =>
      rw [hik] at hp hp'
      simp only [List.get?_cons_zero] at hp hp'
      injection hp with he
      injection hp' with he'
      rw [he'] at hy
      rw [hy] at hf'
      cases hf'
    | succ k =>
      rw [hik] at hp hp'
      simp only [List.get?_cons_succ] at hp hp'
      rw [hp] at hp'
      injection hp' with he
      rw [he] at hf
      rw [hf] at hf'
      cases hf'

/-- C9: the number of network calls simultaneously in flight never exceeds
the admission limiter's capacity along any reachable schedule (the program
uses capacity 20; with capacity 2 and 5 simultaneously launched items it
never exceeds 2), and the only transition that moves a worker into its
returned state is the one that gives its slot back — the slot is released
before returning, on success and on failure alike. -/
theorem c9_concurrency_cap :
    CONCURRENCY = 20 ∧
    (∀ (cap n : Nat) (s : SchedState), SchedReachable cap n s → inFlight s ≤ cap) ∧
    (∀ s : SchedState, SchedReachable 2 5 s → inFlight s ≤ 2) ∧
    (∀ (s s' : SchedState), SchedStep s s' → ∀ (i : Nat) (ph ph' : Phase),
      s.tasks.get? i = some ph → isFinished ph = false →
      s'.tasks.get? i = some ph' → isFinished ph' = true →
      s'.sem = s.sem + 1) := by
  have hcap : ∀ (cap n : Nat) (s : SchedState), SchedReachable cap n s →
      inFlight s ≤ cap := by
    intro cap n s hs
    have hinv := schedReachable_invariant hs
    have hle := inFlight_le_holding s
    omega
  refine ⟨rfl, hcap, fun s hs => hcap 2 5 s hs, ?_⟩
  intro s s' hstep i ph ph' hp hf hp' hf'
  cases hstep with
  | acquire n l1 l2 => exact (no_new_finish (by rfl) hp hf hp' hf').elim
  | callOk n a l1 l2 => exact (no_new_finish (by rfl) hp hf hp' hf').elim
  | callFailRetry n a l1 l2 h => exact (no_new_finish (by rfl) hp hf hp' hf').elim
  | callFailLast n l1 l2 => exact (no_new_finish (by rfl) hp hf hp' hf').elim
  | wake n a l1 l2 => exact (no_new_finish (by rfl) hp hf hp' hf').elim
  | release n ok l1 l2 => rfl

/-- C9 (witness): the cap theorem applied to a concrete reachable state of
the capacity-2, 5-item schedule, one acquisition in. -/
theorem c9_concurrency_cap_check :
    inFlight ⟨1, [] ++ Phase.calling 1 :: List.replicate 4 Phase.waiting⟩ ≤ 2 :=
  c9_concurrency_cap.2.2.1 _
    (Relation.ReflTransGen.single
      (SchedStep.acquire 1 [] (List.replicate 4 Phase.waiting)))

/-! ### Driver lemmas: the id dict, the merge step and the result loop -/

lemma idToIdxFrom_sound :
    ∀ (qs : List Record) (b : Nat) (qid : Int) (i : Nat),
      idToIdxFrom b qs qid = some i →
      b ≤ i ∧ i - b < qs.length ∧
      ∃ q, qs.get? (i - b) = some q ∧ q.id = qid := by
  intro qs
  induction qs with
  | nil => intro b qid i h; cases h
  | cons q rest ih =>
    intro b qid i h
    unfold idToIdxFrom at h
    cases hr : idToIdxFrom (b + 1) rest qid with
    | some j =>
      rw [hr] at h
      injection h with he
      obtain ⟨h1, h2, qq, hq, hid⟩ := ih (b + 1) qid j hr
      refine ⟨by omega, by simp only [List.length_cons]; omega, qq, ?_, hid⟩
      rw [← he]
      have hsub : j - b = (j - (b + 1)) + 1 := by omega
      rw [hsub, List.get?_cons_succ]
      exact hq
    | none =>
      rw [hr] at h
      by_cases hqid : q.id = qid
      · rw [if_pos hqid] at h
        injection h with he
        subst he
        exact ⟨Nat.le_refl b, by simp, q, by simp [Nat.sub_self], hqid⟩
      · rw [if_neg hqid] at h
        cases h

lemma idToIdx_sound {qs : List Record} {qid : Int} {i : Nat}
    (h : idToIdx qs qid = some i) :
    i < qs.length ∧ ∃ q, qs.get? i = some q ∧ q.id = qid := by
  obtain ⟨-, h2, q, hq, hid⟩ := idToIdxFrom_sound qs 0 qid i h
  rw [Nat.sub_zero] at h2 hq
  exact ⟨h2, q, hq, hid⟩

lemma idToIdxFrom_isSome :
    ∀ (qs : List Record) (b : Nat) (qid : Int),
      qid ∈ qs.map Record.id → (idToIdxFrom b qs qid).isSome = true := by
  intro qs
  induction qs with
  | nil => intro b qid h; simp at h
  | cons q rest ih =>
    intro b qid h
    rw [List.map_cons, List.mem_cons] at h
    unfold idToIdxFrom
    cases hr : idToIdxFrom (b + 1) rest qid with
    | some j => rfl
    | none =>
      rcases h with h | h
      · rw [if_pos h.symm]; rfl
      · have hcontra := ih (b + 1) qid h
        rw [hr] at hcontra
        simp at hcontra

lemma idToIdxFrom_congr :
    ∀ (qs qs' : List Record) (b : Nat) (qid : Int),
      qs.map Record.id = qs'.map Record.id →
      idToIdxFrom b qs qid = idToIdxFrom b qs' qid := by
  intro qs
  induction qs with
  | nil =>
    intro qs' b qid h
    cases qs' with
    | nil => rfl
    | cons => simp at h
  | cons q rest ih =>
    intro qs' b qid h
    cases qs' with
    | nil => simp at h
    | cons q' rest' =>
      simp only [List.map_cons, List.cons.injEq] at h
      unfold idToIdxFrom
      rw [ih rest' (b + 1) qid h.2, h.1]

lemma mergeStep_some_spec {st : DriverState} {qid : Int} {r : Json}
    {st' : DriverState}
    (ht : pyTruthy r = true)
    (h : mergeStep st (qid, some r) = some st') :
    ∃ idx legal ana q, idToIdx st.qs qid = some idx ∧
      getItemPy r "legalReference" = some legal ∧
      getItemPy r "analysis" = some ana ∧
      st.qs.get? idx = some q ∧
      st'.qs = st.qs.set idx
        { q with legalReference := some legal, analysis := some ana } ∧
      st'.failed = st.failed ∧ st'.total_done = st.total_done + 1 ∧
      ((SAVE_EVERY ≤ st.completed_since_save + 1 ∧ st'.completed_since_save = 0 ∧
        st'.saves = st.saves + 1 ∧ st'.events = st.events ++ saveQuestions st'.qs) ∨
       (¬ SAVE_EVERY ≤ st.completed_since_save + 1 ∧
        st'.completed_since_save = st.completed_since_save + 1 ∧
        st'.saves = st.saves ∧ st'.events = st.events)) := by
  unfold mergeStep at h
  dsimp only at h
  rw [if_pos ht] at h
  split at h
  next => cases h
  next idx hidx =>
    split at h
    next => cases h
    next legal hlegal =>
      split at h
      next => cases h
      next ana hana =>
        split at h
        next => cases h
        next q hq =>
          split at h
          next hle =>
            injection h with h'
            subst h'
            exact ⟨idx, legal, ana, q, hidx, hlegal, hana, hq, rfl, rfl, rfl,
              Or.inl ⟨hle, rfl, rfl, rfl⟩⟩
          next hgt =>
            injection h with h'
            subst h'
            exact ⟨idx, legal, ana, q, hidx, hlegal, hana, hq, rfl, rfl, rfl,
              Or.inr ⟨hgt, rfl, rfl, rfl⟩⟩

lemma mergeStep_not_truthy {st : DriverState} {qid : Int} {r : Json}
    {st' : DriverState}
    (ht : pyTruthy r = false)
    (h : mergeStep st (qid, some r) = some st') :
    st' = { st with failed := st.failed + 1 } := by
  unfold mergeStep at h
  dsimp only at h
  rw [if_neg (by simp [ht])] at h
  injection h with h'
  exact h'.symm

lemma mergeStep_isSome {st : DriverState} {qid : Int} {r : Json}
    (ht : pyTruthy r = true)
    (hidx : (idToIdx st.qs qid).isSome = true)
    (hl : (getItemPy r "legalReference").isSome = true)
    (ha : (getItemPy r "analysis").isSome = true) :
    (mergeStep st (qid, some r)).isSome = true := by
  obtain ⟨idx, hidx⟩ := Option.isSome_iff_exists.mp hidx
  obtain ⟨legal, hl⟩ := Option.isSome_iff_exists.mp hl
  obtain ⟨ana, ha⟩ := Option.isSome_iff_exists.mp ha
  obtain ⟨hlt, -⟩ := idToIdx_sound hidx
  cases hq : st.qs.get? idx with
  | none =>
    have := List.get?_eq_none.mp hq
    omega
  | some q =>
    unfold mergeStep
    dsimp only
    rw [if_pos ht, hidx]
    dsimp only
    rw [hl]
    dsimp only
    rw [ha]
    dsimp only
    rw [hq]
    dsimp only
    split <;> rfl

lemma mergeStep_frame {st : DriverState} {res : Int × Option Json}
    {st' : DriverState} (h : mergeStep st res = some st') :
    st'.qs.length = st.qs.length ∧
    (∀ i q, st.qs.get? i = some q → ∃ q', st'.qs.get? i = some q' ∧
      q'.id = q.id ∧ q'.question = q.question ∧ q'.options = q.options ∧
      q'.correctAnswer = q.correctAnswer ∧ q'.scenario = q.scenario ∧
      q'.explanation = q.explanation ∧
      (q' = q ∨ ∃ r legal ana, res = (q.id, some r) ∧
        getItemPy r "legalReference" = some legal ∧
        getItemPy r "analysis" = some ana ∧
        q'.legalReference = some legal ∧ q'.analysis = some ana)) := by
  obtain ⟨qid, or⟩ := res
  cases or with
  | none =>
    have he : st' = { st with failed := st.failed + 1 } := by
      have hm : mergeStep st (qid, none) = some { st with failed := st.failed + 1 } := rfl
      rw [hm] at h
      injection h with h'
      exact h'.symm
    subst he
    exact ⟨rfl, fun i q hq => ⟨q, hq, rfl, rfl, rfl, rfl, rfl, rfl, Or.inl rfl⟩⟩
  | some r =>
    by_cases ht : pyTruthy r = true
    · obtain ⟨idx, legal, ana, q0, hidx, hlegal, hana, hq0, hqs, -, -, -⟩ :=
        mergeStep_some_spec ht h
      have hlt : idx < st.qs.length := (idToIdx_sound hidx).1
      constructor
      · rw [hqs]; exact List.length_set st.qs idx _
      · intro i q hq
        by_cases hi : i = idx
        · subst hi
          have hqq : q0 = q := by
            rw [hq0] at hq
            injection hq with h'
          subst hqq
          refine ⟨{ q0 with legalReference := some legal, analysis := some ana },
            ?_, rfl, rfl, rfl, rfl, rfl, rfl, Or.inr ⟨r, legal, ana, ?_, hlegal, hana, rfl, rfl⟩⟩
          · rw [hqs]
            exact List.get?_set_eq_of_lt _ hlt
          · obtain ⟨-, qq, hqq', hid⟩ := idToIdx_sound hidx
            rw [hq0] at hqq'
            injection hqq' with h'
            rw [← h'] at hid
            rw [hid]
        · refine ⟨q, ?_, rfl, rfl, rfl, rfl, rfl, rfl, Or.inl rfl⟩
          rw [hqs, List.get?_set_ne _ _ (fun he => hi he.symm)]
          exact hq
    · have ht' : pyTruthy r = false := by simpa using ht
      have he := mergeStep_not_truthy ht' h
      subst he
      exact ⟨rfl, fun i q hq => ⟨q, hq, rfl, rfl, rfl, rfl, rfl, rfl, Or.inl rfl⟩⟩

lemma runResults_frame :
    ∀ (results : List (Int × Option Json)) (st st' : DriverState),
      runResults st results = some st' →
      st'.qs.length = st.qs.length ∧
      (∀ i q, st.qs.get? i = some q → ∃ q', st'.qs.get? i = some q' ∧
        q'.id = q.id ∧ q'.question = q.question ∧ q'.options = q.options ∧
        q'.correctAnswer = q.correctAnswer ∧ q'.scenario = q.scenario ∧
        q'.explanation = q.explanation ∧
        (q' = q ∨ ∃ r legal ana qid, (qid, some r) ∈ results ∧ qid = q.id ∧
          getItemPy r "legalReference" = some legal ∧
          getItemPy r "analysis" = some ana ∧
          q'.legalReference = some legal ∧ q'.analysis = some ana)) := by
  intro results
  induction results with
  | nil =>
    intro st st' h
    injection h with h'
    subst h'
    exact ⟨rfl, fun i q hq => ⟨q, hq, rfl, rfl, rfl, rfl, rfl, rfl, Or.inl rfl⟩⟩
  | cons res rest ih =>
    intro st st' h
    unfold runResults at h
    cases hm : mergeStep st res with
    | none => rw [hm] at h; cases h
    | some st1 =>
      rw [hm] at h
      obtain ⟨hlen1, hpt1⟩ := mergeStep_frame hm
      obtain ⟨hlen2, hpt2⟩ := ih st1 st' h
      refine ⟨hlen2.trans hlen1, ?_⟩
      intro i q hq
      obtain ⟨q1, hq1, e1, e2, e3, e4, e5, e6, hd1⟩ := hpt1 i q hq
      obtain ⟨q', hq', f1, f2, f3, f4, f5, f6, hd2⟩ := hpt2 i q1 hq1
      refine ⟨q', hq', f1.trans e1, f2.trans e2, f3.trans e3, f4.trans e4,
        f5.trans e5, f6.trans e6, ?_⟩
      rcases hd2 with rfl | ⟨r, legal, ana, qid, hmem, hqid, hl, ha, hql, hqa⟩
      · rcases hd1 with rfl | ⟨r, legal, ana, hres, hl, ha, hql, hqa⟩
        · exact Or.inl rfl
        · refine Or.inr ⟨r, legal, ana, q.id, ?_, rfl, hl, ha, hql, hqa⟩
          rw [← hres]
          exact List.mem_cons_self res rest
      · exact Or.inr ⟨r, legal, ana, qid, List.mem_cons_of_mem _ hmem,
          hqid.trans e1, hl, ha, hql, hqa⟩

lemma runResults_map_id {results : List (Int × Option Json)}
    {st st' : DriverState} (h : runResults st results = some st') :
    st'.qs.map Record.id = st.qs.map Record.id := by
  obtain ⟨hlen, hpt⟩ := runResults_frame results st st' h
  apply List.ext_get?
  intro n
  rw [List.get?_map, List.get?_map]
  cases hq : st.qs.get? n with
  | none =>
    have hn := List.get?_eq_none.mp hq
    rw [List.get?_eq_none.mpr (by omega)]
  | some q =>
    obtain ⟨q', hq', hid, -, -, -, -, -, -⟩ := hpt n q hq
    rw [hq']
    simp [hid]

lemma mergeStep_map_id {st : DriverState} {res : Int × Option Json}
    {st' : DriverState} (h : mergeStep st res = some st') :
    st'.qs.map Record.id = st.qs.map Record.id := by
  have hrun : runResults st [res] = some st' := by
    unfold runResults
    rw [h]
    rfl
  exact runResults_map_id hrun

lemma runResults_total :
    ∀ (results : List (Int × Option Json)) (st : DriverState),
      (∀ p ∈ results, ∀ r, p.2 = some r →
        pyTruthy r = true ∧ (getItemPy r "legalReference").isSome = true ∧
        (getItemPy r "analysis").isSome = true ∧ p.1 ∈ st.qs.map Record.id) →
      ∃ st', runResults st results = some st' := by
  intro results
  induction results with
  | nil => intro st _; exact ⟨st, rfl⟩
  | cons res rest ih =>
    intro st hwf
    obtain ⟨qid, or⟩ := res
    cases or with
    | none =>
      obtain ⟨st', hst'⟩ := ih { st with failed := st.failed + 1 }
        (fun p hp r' hr' => hwf p (List.mem_cons_of_mem _ hp) r' hr')
      refine ⟨st', ?_⟩
      unfold runResults
      rw [show mergeStep st (qid, none)
          = some { st with failed := st.failed + 1 } from rfl]
      exact hst'
    | some r =>
      obtain ⟨ht, hl, ha, hmem⟩ :=
        hwf (qid, some r) (List.mem_cons_self _ rest) r rfl
      have hsome := mergeStep_isSome ht (idToIdxFrom_isSome st.qs 0 qid hmem) hl ha
      obtain ⟨st1, hst1⟩ := Option.isSome_iff_exists.mp hsome
      have hmap := mergeStep_map_id hst1
      obtain ⟨st', hst'⟩ := ih st1 (fun p hp r' hr' => by
        obtain ⟨a, b, c, d⟩ := hwf p (List.mem_cons_of_mem _ hp) r' hr'
        exact ⟨a, b, c, by rw [hmap]; exact d⟩)
      refine ⟨st', ?_⟩
      unfold runResults
      rw [hst1]
      exact hst'

lemma runResults_untouched :
    ∀ (results : List (Int × Option Json)) (st st' : DriverState)
      (i : Nat) (q : Record),
      runResults st results = some st' →
      st.qs.get? i = some q →
      (∀ p ∈ results, p.1 ≠ q.id) →
      st'.qs.get? i = some q := by
  intro results
  induction results with
  | nil =>
    intro st st' i q h hq _
    injection h with h'
    subst h'
    exact hq
  | cons res rest ih =>
    intro st st' i q h hq hne
    unfold runResults at h
    cases hm : mergeStep st res with
    | none => rw [hm] at h; cases h
    | some st1 =>
      rw [hm] at h
      obtain ⟨-, hpt⟩ := mergeStep_frame hm
      obtain ⟨q', hq', hid, -, -, -, -, -, hd⟩ := hpt i q hq
      have hqq : q' = q := by
        rcases hd with rfl | ⟨r, legal, ana, hres, -⟩
        · rfl
        · exact absurd (by rw [hres] : res.1 = q.id)
            (hne res (List.mem_cons_self res rest))
      rw [hqq] at hq'
      exact ih st1 st' i q h hq' (fun p hp => hne p (List.mem_cons_of_mem _ hp))

lemma runResults_written :
    ∀ (results : List (Int × Option Json)) (st st' : DriverState)
      (qid : Int) (r : Json),
      runResults st results = some st' →
      (qid, some r) ∈ results →
      (results.map Prod.fst).Nodup →
      (∀ p ∈ results, ∀ r', p.2 = some r' → pyTruthy r' = true) →
      ∃ i q legal ana, idToIdx st.qs qid = some i ∧
        getItemPy r "legalReference" = some legal ∧
        getItemPy r "analysis" = some ana ∧
        st'.qs.get? i = some q ∧
        q.legalReference = some legal ∧ q.analysis = some ana := by
  intro results
  induction results with
  | nil => intro st st' qid r _ hmem; cases hmem
  | cons res rest ih =>
    intro st st' qid r h hmem hnd hwf
    unfold runResults at h
    cases hm : mergeStep st res with
    | none => rw [hm] at h; cases h
    | some st1 =>
      rw [hm] at h
      rcases List.mem_cons.mp hmem with heq | hmem'
      · subst heq
        have ht : pyTruthy r = true :=
          hwf (qid, some r) (List.mem_cons_self _ rest) r rfl
        obtain ⟨idx, legal, ana, q0, hidx, hlegal, hana, hq0, hqs, -, -, -⟩ :=
          mergeStep_some_spec ht hm
        have hlt : idx < st.qs.length := (idToIdx_sound hidx).1
        have hq1 : st1.qs.get? idx
            = some { q0 with legalReference := some legal, analysis := some ana } := by
          rw [hqs]
          exact List.get?_set_eq_of_lt _ hlt
        have hidq : q0.id = qid := by
          obtain ⟨-, qq, hqq', hid⟩ := idToIdx_sound hidx
          rw [hq0] at hqq'
          injection hqq' with h'
          rw [← h'] at hid
          exact hid
        have hne : ∀ p ∈ rest, p.1 ≠
            ({ q0 with legalReference := some legal, analysis := some ana } : Record).id := by
          intro p hp hpe
          simp only [List.map_cons, List.nodup_cons] at hnd
          apply hnd.1
          show qid ∈ List.map Prod.fst rest
          have hpid : p.1 = qid := hpe.trans hidq
          rw [← hpid]
          exact List.mem_map_of_mem Prod.fst hp
        have hfin := runResults_untouched rest st1 st' idx _ h hq1 hne
        exact ⟨idx, _, legal, ana, hidx, hlegal, hana, hfin, rfl, rfl⟩
      · have hmap := mergeStep_map_id hm
        obtain ⟨i, q, legal, ana, hidx1, hl, ha, hq', hql, hqa⟩ :=
          ih st1 st' qid r h hmem'
            (by simp only [List.map_cons, List.nodup_cons] at hnd; exact hnd.2)
            (fun p hp r' hr' => hwf p (List.mem_cons_of_mem _ hp) r' hr')
        refine ⟨i, q, legal, ana, ?_, hl, ha, hq', hql, hqa⟩
        unfold idToIdx at hidx1 ⊢
        rw [idToIdxFrom_congr st.qs st1.qs 0 qid (hmap.symm)]
        exact hidx1

/-! ### C5: persistence pattern and cadence -/

/-- Results the merge loop counts as successes (a payload that is present
and truthy). -/
def isSuccRes : Int × Option Json → Bool
  | (_, some r) => pyTruthy r
  | (_, none) => false

/-- Number of successful results in a completion list. -/
def succCount (results : List (Int × Option Json)) : Nat :=
  results.countP isSuccRes

lemma runResults_cadence :
    ∀ (results : List (Int × Option Json)) (st st' : DriverState),
      runResults st results = some st' →
      st.completed_since_save < SAVE_EVERY →
      st'.saves = st.saves
        + (st.completed_since_save + succCount results) / SAVE_EVERY ∧
      st'.completed_since_save
        = (st.completed_since_save + succCount results) % SAVE_EVERY ∧
      st'.completed_since_save < SAVE_EVERY := by
  intro results
  induction results with
  | nil =>
    intro st st' h hlt
    injection h with h'
    subst h'
    refine ⟨?_, ?_, hlt⟩
    · rw [show succCount [] = 0 from rfl, Nat.add_zero, Nat.div_eq_of_lt hlt,
        Nat.add_zero]
    · rw [show succCount [] = 0 from rfl, Nat.add_zero, Nat.mod_eq_of_lt hlt]
  | cons res rest ih =>
    intro st st' h hlt
    unfold runResults at h
    cases hm : mergeStep st res with
    | none => rw [hm] at h; cases h
    | some st1 =>
      rw [hm] at h
      obtain ⟨qid, or⟩ := res
      cases or with
      | none =>
        have hs : st1 = { st with failed := st.failed + 1 } := by
          have hmm : mergeStep st (qid, none)
              = some { st with failed := st.failed + 1 } := rfl
          rw [hmm] at hm
          injection hm with h'
          exact h'.symm
        subst hs
        have hc := ih _ _ h hlt
        have hcount : succCount ((qid, none) :: rest) = succCount rest := by
          simp [succCount, List.countP_cons, isSuccRes]
        rw [hcount]
        exact hc
      | some r =>
        by_cases ht : pyTruthy r = true
        · have hcount : succCount ((qid, some r) :: rest) = succCount rest + 1 := by
            simp [succCount, List.countP_cons, isSuccRes, ht]
          obtain ⟨idx, legal, ana, q, hidx, hl, ha, hq, hqs, hfail, hdone, hbr⟩ :=
            mergeStep_some_spec ht hm
          have h5 : SAVE_EVERY = 5 := rfl
          rcases hbr with ⟨hle, hcss, hsv, hev⟩ | ⟨hgt, hcss, hsv, hev⟩
          · obtain ⟨s1, s2, s3⟩ := ih st1 st' h (by rw [hcss, h5]; omega)
            rw [hcount]
            refine ⟨?_, ?_, s3⟩
            · rw [s1, hsv, hcss]
              rw [h5] at hle ⊢
              omega
            · rw [s2, hcss]
              rw [h5] at hle ⊢
              omega
          · obtain ⟨s1, s2, s3⟩ := ih st1 st' h
              (by rw [hcss]; rw [h5] at hgt ⊢; omega)
            rw [hcount]
            refine ⟨?_, ?_, s3⟩
            · rw [s1, hsv, hcss]
              rw [h5] at hgt ⊢
              omega
            · rw [s2, hcss]
              rw [h5] at hgt ⊢
              omega
        · have ht' : pyTruthy r = false := by simpa using ht
          have hs := mergeStep_not_truthy ht' hm
          subst hs
          have hc := ih _ _ h hlt
          have hcount : succCount ((qid, some r) :: rest) = succCount rest := by
            simp [succCount, List.countP_cons, isSuccRes, ht']
          rw [hcount]
          exact hc

/-- A pending record (no analysis yet). -/
def pend (n : Int) : Record :=
  { id := n, question := "q", options := ["a", "b", "c", "d"], correctAnswer := 0,
    scenario := none, explanation := none, legalReference := none,
    analysis := none }

/-- An already-complete record (analysis of 501 characters). -/
def longRec (n : Int) : Record :=
  { id := n, question := "q", options := ["a", "b", "c", "d"], correctAnswer := 0,
    scenario := none, explanation := none, legalReference := none,
    analysis := some (Json.str (String.mk (List.replicate 501 'x'))) }

/-- The scenario collection: 7 records, 2 already complete. -/
def scenario7 : List Record :=
  [pend 1, longRec 10, pend 3, pend 4, longRec 11, pend 5, pend 6]

/-- A successful result for one identifier. -/
def okRes (n : Int) : Int × Option Json :=
  (n, some (Json.obj [("legalReference", Json.str "L"), ("analysis", Json.str "A")]))

/-- The 5 successful results of the scenario, in completion order. -/
def scenarioResults : List (Int × Option Json) :=
  [okRes 1, okRes 3, okRes 4, okRes 5, okRes 6]

/-- C5: persistence writes the whole collection to the temporary path and
renames it over the canonical path; a mid-run save is triggered exactly when
5 successful merges have accumulated since the last save (total mid-run
saves are the accumulated successes divided by 5), and one more save always
happens at end of run; for the 7-record collection with 2 items already
complete, exactly 5 work items are dispatched and a fully successful run
performs exactly one mid-run save plus the final save. -/
theorem c5_persistence_cadence :
    (∀ qs : List Record, saveQuestions qs
      = [FsEvent.write TMP_PATH qs, FsEvent.rename TMP_PATH QUESTIONS_PATH]) ∧
    (∀ (results : List (Int × Option Json)) (st st' : DriverState),
      runResults st results = some st' →
      st.completed_since_save < SAVE_EVERY →
      st'.saves = st.saves
        + (st.completed_since_save + succCount results) / SAVE_EVERY) ∧
    (∀ (qs : List Record) (results : List (Int × Option Json))
        (st' : DriverState) (tp : List Record) (sk : Nat),
      toProcessAux qs = some (tp, sk) → ¬ tp.isEmpty = true →
      runResults (initState qs) results = some st' →
      driverRun qs results = some
        { qs := st'.qs, events := st'.events ++ saveQuestions st'.qs,
          saves := st'.saves }) ∧
    (∃ tp, toProcessAux scenario7 = some (tp, 2) ∧ tp.length = 5) ∧
    (∃ out : RunOut, driverRun scenario7 scenarioResults = some out ∧
      out.saves = 1 ∧
      ∃ qsMid, out.events = saveQuestions qsMid ++ saveQuestions out.qs) := by
  refine ⟨fun qs => rfl, ?_, ?_, ⟨_, rfl, rfl⟩, ⟨_, rfl, rfl, _, rfl⟩⟩
  · intro results st st' h hlt
    exact (runResults_cadence results st st' h hlt).1
  · intro qs results st' tp sk htp hne hrun
    unfold driverRun
    rw [htp]
    dsimp only
    rw [if_neg hne, hrun]

/-- C5 (witness): the cadence equation applied to the concrete scenario. -/
theorem c5_persistence_cadence_check :
    ∃ st', runResults (initState scenario7) scenarioResults = some st' ∧
      st'.saves = 1 := by
  refine ⟨_, rfl, ?_⟩
  rw [c5_persistence_cadence.2.1 scenarioResults (initState scenario7) _ rfl
    (by decide)]
  rfl

/-! ### C8: the merge's frame property -/

/-- C8: with unique identifiers, merging one successful result changes only
the `legalReference` and `analysis` fields of the record whose identifier
matches; every other field of that record, every other record, and the
collection's length and order are unchanged; and over a whole run no record
is created or deleted and every static field is preserved. -/
theorem c8_frame (st : DriverState) (qid : Int) (r : Json) (st' : DriverState)
    (huniq : (st.qs.map Record.id).Nodup)
    (ht : pyTruthy r = true)
    (h : mergeStep st (qid, some r) = some st') :
    st'.qs.length = st.qs.length ∧
    (∀ i q, st.qs.get? i = some q → q.id ≠ qid → st'.qs.get? i = some q) ∧
    (∀ i q, st.qs.get? i = some q → q.id = qid →
      ∃ legal ana, getItemPy r "legalReference" = some legal ∧
        getItemPy r "analysis" = some ana ∧
        st'.qs.get? i = some
          { q with legalReference := some legal, analysis := some ana }) ∧
    (∀ (results : List (Int × Option Json)) (s s' : DriverState),
      runResults s results = some s' →
      s'.qs.length = s.qs.length ∧
      ∀ i q, s.qs.get? i = some q → ∃ q', s'.qs.get? i = some q' ∧
        q'.id = q.id ∧ q'.question = q.question ∧ q'.options = q.options ∧
        q'.correctAnswer = q.correctAnswer ∧ q'.scenario = q.scenario ∧
        q'.explanation = q.explanation) := by
  obtain ⟨idx, legal, ana, q0, hidx, hlegal, hana, hq0, hqs, -, -, -⟩ :=
    mergeStep_some_spec ht h
  have hlt : idx < st.qs.length := (idToIdx_sound hidx).1
  have hidq : q0.id = qid := by
    obtain ⟨-, qq, hqq', hid⟩ := idToIdx_sound hidx
    rw [hq0] at hqq'
    injection hqq' with h'
    rw [← h'] at hid
    exact hid
  refine ⟨?_, ?_, ?_, ?_⟩
  · rw [hqs]; exact List.length_set st.qs idx _
  · intro i q hq hne
    have hi : i ≠ idx := by
      intro he
      subst he
      rw [hq0] at hq
      injection hq with h'
      apply hne
      rw [← h']
      exact hidq
    rw [hqs, List.get?_set_ne _ _ (fun he => hi he.symm)]
    exact hq
  · intro i q hq hqid
    have hilt : i < st.qs.length := by
      by_contra hh
      rw [List.get?_eq_none.mpr (by omega)] at hq
      cases hq
    have hi : i = idx := by
      have h1 : (st.qs.map Record.id).get? i = some qid := by
        rw [List.get?_map, hq]
        simp [hqid]
      have h2 : (st.qs.map Record.id).get? idx = some qid := by
        rw [List.get?_map, hq0]
        simp [hidq]
      exact List.get?_inj (by rw [List.length_map]; exact hilt) huniq
        (h1.trans h2.symm)
    subst hi
    have hqq : q0 = q := by
      rw [hq0] at hq
      injection hq
    subst hqq
    refine ⟨legal, ana, hlegal, hana, ?_⟩
    rw [hqs]
    exact List.get?_set_eq_of_lt _ hlt
  · intro results s s' hrun
    obtain ⟨hl, hpt⟩ := runResults_frame results s s' hrun
    refine ⟨hl, fun i q hq => ?_⟩
    obtain ⟨q', a, b, c, d, e, f, g, -⟩ := hpt i q hq
    exact ⟨q', a, b, c, d, e, f, g⟩

/-- The two-record collection before a merge. -/
def stTwo : DriverState := initState [q0, rec501]

/-- The first record of `stTwo` after its enrichment. -/
def q0After : Record :=
  { q0 with legalReference := some (Json.str "GDPR Article 5"),
            analysis := some (Json.str "essay") }

/-- The state after merging `(7, j0res)` into `stTwo`. -/
def stTwoAfter : DriverState :=
  { qs := [q0After, rec501], completed_since_save := 1, total_done := 1,
    failed := 0, saves := 0, events := [] }

/-- C8 (witness): the frame theorem applied at a concrete merge. -/
theorem c8_frame_check : stTwoAfter.qs.length = stTwo.qs.length :=
  (c8_frame stTwo 7 j0res stTwoAfter (by decide) rfl rfl).1

/-! ### C6: idempotence of the batch -/

lemma toProcessAux_isSome :
    ∀ {qs : List Record} {pr : List Record × Nat}, toProcessAux qs = some pr →
      ∀ q ∈ qs, (analysisLenOf q).isSome = true := by
  intro qs
  induction qs with
  | nil => intro pr _ q hq; cases hq
  | cons q0 rest ih =>
    intro pr h q hq
    unfold toProcessAux at h
    split at h
    next => cases h
    next n hn =>
      split at h
      next => cases h
      next tp sk hr =>
        rcases List.mem_cons.mp hq with rfl | hq'
        · rw [hn]; rfl
        · exact ih hr q hq'

lemma getItem_pair (L A : String) :
    getItemPy (Json.obj [("legalReference", Json.str L), ("analysis", Json.str A)])
        "legalReference" = some (Json.str L) ∧
    getItemPy (Json.obj [("legalReference", Json.str L), ("analysis", Json.str A)])
        "analysis" = some (Json.str A) ∧
    pyTruthy (Json.obj [("legalReference", Json.str L), ("analysis", Json.str A)])
      = true :=
  ⟨rfl, rfl, rfl⟩

lemma id_unique_index {qs : List Record} (huniq : (qs.map Record.id).Nodup)
    {i j : Nat} {q1 q2 : Record}
    (h1 : qs.get? i = some q1) (h2 : qs.get? j = some q2)
    (hid : q1.id = q2.id) : i = j := by
  have hilt : i < qs.length := by
    by_contra hh
    rw [List.get?_eq_none.mpr (by omega)] at h1
    cases h1
  have e1 : (qs.map Record.id).get? i = some q1.id := by
    rw [List.get?_map, h1]; rfl
  have e2 : (qs.map Record.id).get? j = some q1.id := by
    rw [List.get?_map, h2]; simp [hid]
  exact List.get?_inj (by rw [List.length_map]; exact hilt) huniq (e1.trans e2.symm)

/-- The completion list of a fully successful run: one successful result per
work item, carrying the generated field pair for that identifier. -/
def enrichResults (tp : List Record) (enrich : Int → String × String) :
    List (Int × Option Json) :=
  tp.map (fun q => (q.id, some (Json.obj
    [("legalReference", Json.str (enrich q.id).1),
     ("analysis", Json.str (enrich q.id).2)])))

/-- The one-record collection whose single work item succeeds with a short
analysis. -/
def shortRes : Int × Option Json :=
  (1, some (Json.obj [("legalReference", Json.str "L"),
    ("analysis", Json.str "short")]))

/-- The record after the short-analysis merge. -/
def pendOneAfter : Record :=
  { pend 1 with legalReference := some (Json.str "L"),
                analysis := some (Json.str "short") }

/-- The run output of the short-analysis counterexample. -/
def cexOut : RunOut :=
  { qs := [pendOneAfter], events := saveQuestions [pendOneAfter], saves := 0 }

/-- C6 (counterexample): a run in which every work item succeeds, but whose
generated analysis is 5 characters long; the second run's filter selects the
record again (1 work item, not 0), refuting the claim as stated. -/
theorem c6_idempotence_counterexample :
    driverRun [pend 1] [shortRes] = some cexOut ∧
    toProcessAux cexOut.qs = some ([pendOneAfter], 0) :=
  ⟨rfl, rfl⟩

/-- C6 (amended): if a run completes with every work item successful and
each generated analysis is longer than the 500-character threshold, then
the output collection passes the completeness filter everywhere, and a
second run — with the remote service unchanged or otherwise — selects zero
work items and returns the collection unchanged, performing no dispatch and
no write. -/
theorem c6_idempotence_amended
    (qs tp : List Record) (sk : Nat) (enrich : Int → String × String)
    (huniq : (qs.map Record.id).Nodup)
    (htp : toProcessAux qs = some (tp, sk))
    (hbig : ∀ q ∈ tp, SKIP_THRESHOLD < (enrich q.id).2.length) :
    ∃ out : RunOut,
      driverRun qs (enrichResults tp enrich) = some out ∧
      toProcessAux out.qs = some ([], out.qs.length) ∧
      ∀ results2 : List (Int × Option Json), driverRun out.qs results2
        = some { qs := out.qs, events := [], saves := 0 } := by
  have hlenOK : ∀ q ∈ qs, (analysisLenOf q).isSome = true := toProcessAux_isSome htp
  have htp_eq := toProcessAux_eq hlenOK
  rw [htp] at htp_eq
  injection htp_eq with hpair
  have hfilter : tp = qs.filter (fun q => decide (analysisLenD q ≤ SKIP_THRESHOLD)) :=
    congrArg Prod.fst hpair
  have hmem_tp_qs : ∀ q ∈ tp, q ∈ qs := by
    intro q hq
    rw [hfilter] at hq
    exact (List.mem_filter.mp hq).1
  have hle_tp : ∀ q ∈ tp, analysisLenD q ≤ SKIP_THRESHOLD := by
    intro q hq
    rw [hfilter] at hq
    have := (List.mem_filter.mp hq).2
    simpa using this
  have hids_nodup : ((enrichResults tp enrich).map Prod.fst).Nodup := by
    have hsub : List.Sublist (tp.map Record.id) (qs.map Record.id) := by
      rw [hfilter]
      exact (List.filter_sublist qs).map Record.id
    have hnd : (tp.map Record.id).Nodup := List.Nodup.sublist hsub huniq
    simpa [enrichResults, List.map_map, Function.comp] using hnd
  have hwf : ∀ p ∈ enrichResults tp enrich, ∀ r, p.2 = some r →
      pyTruthy r = true ∧ (getItemPy r "legalReference").isSome = true ∧
      (getItemPy r "analysis").isSome = true ∧
      p.1 ∈ (initState qs).qs.map Record.id := by
    intro p hp r hr
    unfold enrichResults at hp
    obtain ⟨q, hq, rfl⟩ := List.mem_map.mp hp
    have hro : Json.obj [("legalReference", Json.str (enrich q.id).1),
        ("analysis", Json.str (enrich q.id).2)] = r := Option.some.inj hr
    subst hro
    refine ⟨(getItem_pair _ _).2.2, ?_, ?_, ?_⟩
    · rw [(getItem_pair _ _).1]; rfl
    · rw [(getItem_pair _ _).2.1]; rfl
    · show q.id ∈ qs.map Record.id
      exact List.mem_map_of_mem Record.id (hmem_tp_qs q hq)
  obtain ⟨stF, hrunF⟩ := runResults_total (enrichResults tp enrich) (initState qs) hwf
  by_cases htpe : tp.isEmpty = true
  · have htpnil : tp = [] := List.isEmpty_iff.mp htpe
    subst htpnil
    have hall := List.filter_eq_nil_iff.mp hfilter.symm
    have hgt : ∀ q ∈ qs, SKIP_THRESHOLD < analysisLenD q := by
      intro q hq
      have h1 := hall q hq
      simp only [decide_eq_true_eq] at h1
      omega
    have hcount : qs.countP (fun q => decide (SKIP_THRESHOLD < analysisLenD q))
        = qs.length :=
      List.countP_eq_length.mpr (fun q hq => by simpa using hgt q hq)
    have htoF : toProcessAux qs = some ([], qs.length) := by
      rw [toProcessAux_eq hlenOK, ← hfilter, hcount]
    refine ⟨⟨qs, [], 0⟩, ?_, htoF, ?_⟩
    · unfold driverRun
      rw [htp]
      dsimp only
      rfl
    · intro results2
      unfold driverRun
      rw [htoF]
      dsimp only
      rfl
  · have hne : ¬ tp.isEmpty = true := htpe
    have hbigF : ∀ i q', stF.qs.get? i = some q' →
        ∃ n, analysisLenOf q' = some n ∧ SKIP_THRESHOLD < n := by
      intro i q' hq'
      obtain ⟨hlenF, -⟩ := runResults_frame _ _ _ hrunF
      have hilt : i < qs.length := by
        by_contra hh
        have hlen0 : (initState qs).qs.length = qs.length := rfl
        rw [List.get?_eq_none.mpr (by omega)] at hq'
        cases hq'
      obtain ⟨q, hq⟩ : ∃ q, qs.get? i = some q := by
        cases hqq : qs.get? i with
        | none =>
          have := List.get?_eq_none.mp hqq
          omega
        | some q => exact ⟨q, rfl⟩
      by_cases hcase : analysisLenD q ≤ SKIP_THRESHOLD
      · have hqtp : q ∈ tp := by
          rw [hfilter]
          exact List.mem_filter.mpr ⟨List.get?_mem hq, by simpa using hcase⟩
        have hmemres : (q.id, some (Json.obj
            [("legalReference", Json.str (enrich q.id).1),
             ("analysis", Json.str (enrich q.id).2)])) ∈ enrichResults tp enrich := by
          unfold enrichResults
          exact List.mem_map_of_mem _ hqtp
        obtain ⟨iW, qW, legal, ana, hidxW, hlW, haW, hgetW, hql, hqa⟩ :=
          runResults_written _ _ _ _ _ hrunF hmemres hids_nodup
            (fun p hp r' hr' => (hwf p hp r' hr').1)
        have hiW : iW = i := by
          obtain ⟨-, qq, hqq', hidqq⟩ := idToIdx_sound hidxW
          exact id_unique_index huniq hqq' hq hidqq
        rw [hiW] at hgetW
        have hq'W : qW = q' := by
          rw [hgetW] at hq'
          exact Option.some.inj hq'
        have hana : ana = Json.str (enrich q.id).2 := by
          rw [(getItem_pair _ _).2.1] at haW
          exact (Option.some.inj haW).symm
        refine ⟨(enrich q.id).2.length, ?_, hbig q hqtp⟩
        rw [← hq'W]
        unfold analysisLenOf
        rw [hqa, hana]
        rfl
      · have hnotin : ∀ p ∈ enrichResults tp enrich, p.1 ≠ q.id := by
          intro p hp hpe
          unfold enrichResults at hp
          obtain ⟨q1, hq1, rfl⟩ := List.mem_map.mp hp
          obtain ⟨j, hj⟩ := List.mem_iff_get?.mp (hmem_tp_qs q1 hq1)
          have hij : j = i := id_unique_index huniq hj hq hpe
          rw [hij, hq] at hj
          have hq1q : q = q1 := Option.some.inj hj
          apply hcase
          rw [hq1q]
          exact hle_tp q1 hq1
        have huntouched := runResults_untouched _ _ _ i q hrunF hq hnotin
        rw [huntouched] at hq'
        have hqq' : q = q' := Option.some.inj hq'
        obtain ⟨n, hn⟩ := Option.isSome_iff_exists.mp (hlenOK q (List.get?_mem hq))
        have hlenD : analysisLenD q = n := by
          unfold analysisLenD
          rw [hn]
          rfl
        refine ⟨n, by rw [← hqq']; exact hn, by omega⟩
    have hallSome : ∀ q' ∈ stF.qs, (analysisLenOf q').isSome = true := by
      intro q' hq'
      obtain ⟨i, hi⟩ := List.mem_iff_get?.mp hq'
      obtain ⟨n, hn, -⟩ := hbigF i q' hi
      rw [hn]
      rfl
    have hfilF : stF.qs.filter (fun q => decide (analysisLenD q ≤ SKIP_THRESHOLD))
        = [] := by
      rw [List.filter_eq_nil_iff]
      intro q' hq'
      obtain ⟨i, hi⟩ := List.mem_iff_get?.mp hq'
      obtain ⟨n, hn, hgt⟩ := hbigF i q' hi
      have hlenD : analysisLenD q' = n := by
        unfold analysisLenD
        rw [hn]
        rfl
      simp only [decide_eq_true_eq, hlenD]
      omega
    have hcntF : stF.qs.countP (fun q => decide (SKIP_THRESHOLD < analysisLenD q))
        = stF.qs.length := by
      rw [List.countP_eq_length]
      intro q' hq'
      obtain ⟨i, hi⟩ := List.mem_iff_get?.mp hq'
      obtain ⟨n, hn, hgt⟩ := hbigF i q' hi
      have hlenD : analysisLenD q' = n := by
        unfold analysisLenD
        rw [hn]
        rfl
      simp only [decide_eq_true_eq, hlenD]
      omega
    have htoF : toProcessAux stF.qs = some ([], stF.qs.length) := by
      rw [toProcessAux_eq hallSome, hfilF, hcntF]
    refine ⟨⟨stF.qs, stF.events ++ saveQuestions stF.qs, stF.saves⟩, ?_, htoF, ?_⟩
    · unfold driverRun
      rw [htp]
      dsimp only
      rw [if_neg hne, hrunF]
    · intro results2
      unfold driverRun
      rw [htoF]
      dsimp only
      rfl

/-- The enrichment used by the concrete idempotence check: a 501-character
analysis for every item. -/
def enrich501 : Int → String × String :=
  fun _ => ("L", String.mk (List.replicate 501 'y'))

/-- C6 (witness): the amended idempotence theorem applied at a one-record
collection. -/
theorem c6_idempotence_amended_check :
    ∃ out : RunOut,
      driverRun [pend 1] (enrichResults [pend 1] enrich501) = some out ∧
      toProcessAux out.qs = some ([], out.qs.length) ∧
      ∀ results2 : List (Int × Option Json), driverRun out.qs results2
        = some { qs := out.qs, events := [], saves := 0 } :=
  c6_idempotence_amended [pend 1] [pend 1] 0 enrich501 (by decide) rfl
    (by
      intro q hq
      simp only [List.mem_cons, List.not_mem_nil, or_false] at hq
      subst hq
      show 500 < (String.mk (List.replicate 501 'y')).length
      decide)
